import Mathlib

/-!
Verification development for the `rats` (Release App Tag Selector) library.

The Go source is shallowly embedded in Lean: tags are lists of characters,
the external `semver` collaborator (parse / total-order compare / shape
predicates, per the specification's §6 interface) is modelled by the
`Semver` structure together with `parseChars` and `Semver.comp`, and each
pipeline function of the repository (`classifyBound`, `compileMin`,
`compileMaxExclusive`, `clipRange`, `deduplicate`, `aggregateMinor`,
`sortSemver`, `Filter`, `Sort`, `Select`, `Options.normalized`, …) is
translated into an executable Lean definition of the same shape.
-/

/-- Decimal digits of a character list interpreted as a natural number
(the embedding of `strconv.Atoi` on already-validated digit strings). -/
def digitsToNat (cs : List Char) : Nat :=
  cs.foldl (fun a c => a * 10 + (c.toNat - 48)) 0

/-- Modelled from the spec: the external version library's numeric
identifier rule — a nonempty all-digit string without a leading zero
(`0` alone is allowed), as in the `(0|[1-9]\d*)` groups of the source's
`relX`/`relXY`/`relXYZ` regular expressions. -/
def parseNumStrict (cs : List Char) : Option Nat :=
  match cs with
  | [] => none
  | c :: rest =>
    if (c :: rest).all Char.isDigit then
      if c = '0' ∧ rest ≠ [] then none
      else some (digitsToNat (c :: rest))
    else none

/-- Split a character list on a separator character (embedding of
`strings.Split`); always returns at least one part. -/
def splitOnChar (sep : Char) : List Char → List (List Char)
  | [] => [[]]
  | c :: cs =>
    if c = sep then [] :: splitOnChar sep cs
    else
      match splitOnChar sep cs with
      | [] => [[c]]
      | p :: ps => (c :: p) :: ps

/-- A single prerelease identifier: numeric or alphanumeric, per standard
semantic-versioning precedence rules (spec §6 and glossary). -/
inductive PreId where
  | num : Nat → PreId
  | alpha : List Char → PreId
deriving DecidableEq

/-- Byte-wise lexicographic comparison of character lists (the ordering Go
uses for strings; tags are ASCII, where byte order and code-point order
coincide). -/
def compareChars : List Char → List Char → Ordering
  | [], [] => .eq
  | [], _ :: _ => .lt
  | _ :: _, [] => .gt
  | a :: as, b :: bs =>
    if a < b then .lt else if b < a then .gt else compareChars as bs

/-- Modelled from the spec: precedence of single prerelease identifiers —
numeric identifiers compare numerically and sort below alphanumeric ones,
alphanumeric identifiers compare in ASCII order. -/
def idCompare : PreId → PreId → Ordering
  | .num a, .num b => compare a b
  | .num _, .alpha _ => .lt
  | .alpha _, .num _ => .gt
  | .alpha a, .alpha b => compareChars a b

/-- Modelled from the spec: precedence of dot-separated prerelease
identifier lists — element-wise, a strict prefix sorting lower. -/
def preCompare : List PreId → List PreId → Ordering
  | [], [] => .eq
  | [], _ :: _ => .lt
  | _ :: _, [] => .gt
  | a :: as, b :: bs =>
    match idCompare a b with
    | .eq => preCompare as bs
    | o => o

/-- The Version Fact of the spec's data model (§3): the parsed
representation one tag, as produced by the external `semver` collaborator.
`hasMinor`/`hasPatch` model the library's shape flags for shorthand forms;
`build` is `none` when no `+` part is present. -/
structure Semver where
  major : Nat := 0
  minor : Nat := 0
  patch : Nat := 0
  hasMinor : Bool := false
  hasPatch : Bool := false
  pre : List PreId := []
  build : Option (List (List Char)) := none
  original : List Char := []
deriving DecidableEq

instance : Inhabited Semver := ⟨{}⟩

/-- Modelled from the spec (§6): the version library's total-order
`Compare` — numeric `major.minor.patch` first, then the release/prerelease
rule (a release sorts above every prerelease of the same triple), then
prerelease identifier precedence; build metadata and shape flags are
ignored. Absent segments compare as zero. -/
def Semver.comp (a b : Semver) : Ordering :=
  match compare a.major b.major with
  | .eq =>
    match compare a.minor b.minor with
    | .eq =>
      match compare a.patch b.patch with
      | .eq =>
        match a.pre, b.pre with
        | [], [] => .eq
        | [], _ :: _ => .gt
        | _ :: _, [] => .lt
        | p, q => preCompare p q
      | o => o
    | o => o
  | o => o

/-- Strip one leading `v` or `V` (the version library accepts both). -/
def stripAnyV : List Char → List Char
  | 'v' :: cs => cs
  | 'V' :: cs => cs
  | cs => cs

/-- Strip one leading lowercase `v` only (the `v?` of the source's
release-shorthand regular expressions). -/
def stripLowV : List Char → List Char
  | 'v' :: cs => cs
  | cs => cs

/-- Parse one prerelease identifier: all-digit identifiers are numeric and
must not have a leading zero; otherwise the characters must be
alphanumeric or hyphen. -/
def parsePreId (cs : List Char) : Option PreId :=
  match cs with
  | [] => none
  | c :: rest =>
    if (c :: rest).all Char.isDigit then
      if c = '0' ∧ rest ≠ [] then none
      else some (.num (digitsToNat (c :: rest)))
    else if (c :: rest).all (fun x => x.isAlphanum || x == '-') then
      some (.alpha (c :: rest))
    else none

/-- A build identifier: nonempty, alphanumeric or hyphen (leading zeros
allowed, per standard semantic versioning). -/
def validBuildId (cs : List Char) : Bool :=
  !cs.isEmpty && cs.all (fun x => x.isAlphanum || x == '-')

/-- Modelled from the spec (§6): `parse(string) → (Fact, ok)` of the
external version library. Accepts an optional leading `v`/`V`, a core of
one to three strict numeric segments (shorthand `X` and `X.Y` parse with
the corresponding shape flags cleared), an optional `-prerelease` and an
optional `+build` part. -/
def parseChars (cs : List Char) : Option Semver :=
  let t := stripAnyV cs
  let body := t.takeWhile (fun c => c != '+')
  let buildRest := t.dropWhile (fun c => c != '+')
  let core := body.takeWhile (fun c => c != '-')
  let preRest := body.dropWhile (fun c => c != '-')
  let buildPart : Option (Option (List (List Char))) :=
    match buildRest with
    | [] => some none
    | _ :: bs =>
      let ids := splitOnChar '.' bs
      if ids.all validBuildId then some (some ids) else none
  let prePart : Option (List PreId) :=
    match preRest with
    | [] => some []
    | _ :: ps => (splitOnChar '.' ps).mapM parsePreId
  match buildPart, prePart with
  | some b, some p =>
    match splitOnChar '.' core with
    | [x] =>
      match parseNumStrict x with
      | some a =>
        some { major := a, hasMinor := false, hasPatch := false,
               pre := p, build := b, original := cs }
      | none => none
    | [x, y] =>
      match parseNumStrict x, parseNumStrict y with
      | some a, some m =>
        some { major := a, minor := m, hasMinor := true, hasPatch := false,
               pre := p, build := b, original := cs }
      | _, _ => none
    | [x, y, z] =>
      match parseNumStrict x, parseNumStrict y, parseNumStrict z with
      | some a, some m, some q =>
        some { major := a, minor := m, patch := q, hasMinor := true, hasPatch := true,
               pre := p, build := b, original := cs }
      | _, _, _ => none
    | _ => none
  | _, _ => none

/-- Digits of a natural number (rendering used by `fmt.Sprintf("%d")`). -/
def fmtNat (n : Nat) : List Char :=
  (Nat.repr n).data

/-- Render one prerelease identifier back to characters. -/
def fmtPreId : PreId → List Char
  | .num n => fmtNat n
  | .alpha s => s

/-- Render a prerelease identifier list (dot-separated). -/
def fmtPre (p : List PreId) : List Char :=
  List.intercalate ['.'] (p.map fmtPreId)

/-- Render `major.minor.patch[-pre]` (the strings built by the source's
`fmt.Sprintf` calls in the bound compiler). -/
def fmtVer (a b c : Nat) (p : List PreId) : List Char :=
  fmtNat a ++ '.' :: fmtNat b ++ '.' :: fmtNat c ++ (if p.isEmpty then [] else '-' :: fmtPre p)

/-- `classifyBound` of `range.go`: detect a release-shorthand bound via the
`relX` / `relXY` / `relXYZ` regular expressions (`^v?(0|[1-9]\d*)...$`,
lowercase `v` only) and extract the numbers. Result is
`(kind, major, minor, patch)` with kind 1 for `X`, 2 for `X.Y`, 3 for `X.Y.Z`. -/
def classifyBound (cs : List Char) : Option (Nat × Nat × Nat × Nat) :=
  match splitOnChar '.' (stripLowV cs) with
  | [x] => (parseNumStrict x).map fun a => (1, a, 0, 0)
  | [x, y] =>
    match parseNumStrict x, parseNumStrict y with
    | some a, some b => some (2, a, b, 0)
    | _, _ => none
  | [x, y, z] =>
    match parseNumStrict x, parseNumStrict y, parseNumStrict z with
    | some a, some b, some c => some (3, a, b, c)
    | _, _, _ => none
  | _ => none

/-- `compileMin` of `range.go`: build the floor and report whether it is
exclusive, plus an ok flag. The source renders the shorthand floor as a
string (`fmt.Sprintf`, with `-0` appended when prereleases are included at
the floor for `X` / `X.Y`) and re-parses it; on these already-validated
numeric components that round-trips to exactly the record constructed here. -/
def compileMin (raw : List Char) (minExclusive includePreAtFloor : Bool) : Semver × Bool × Bool :=
  match classifyBound raw with
  | none =>
    match parseChars raw with
    | some v => (v, minExclusive, true)
    | none => (default, false, false)
  | some (kind, a, b, c) =>
    let preF : List PreId := if includePreAtFloor ∧ kind < 3 then [.num 0] else []
    ({ major := a, minor := b, patch := c, hasMinor := true, hasPatch := true,
       pre := preF, build := none, original := fmtVer a b c preF }, minExclusive, true)

/-- `compileMaxExclusive` of `range.go`: convert the max bound to a strict
exclusive ceiling. For an inclusive full bound the source renders the next
value after the bound (`%d.%d.%d-%s.0` when the bound carries a prerelease,
`%d.%d.%d-0` with patch incremented otherwise) and re-parses it; on
already-validated components that round-trips to the records constructed
here. Shorthand bounds get the `-0` fencepost at the (possibly bumped)
segment. -/
def compileMaxExclusive (raw : List Char) (maxExclusive : Bool) : Semver × Bool :=
  match classifyBound raw with
  | none =>
    match parseChars raw with
    | none => (default, false)
    | some v =>
      if maxExclusive then (v, true)
      else if v.pre ≠ [] then
        ({ major := v.major, minor := v.minor, patch := v.patch,
           hasMinor := true, hasPatch := true, pre := v.pre ++ [.num 0], build := none,
           original := fmtVer v.major v.minor v.patch (v.pre ++ [.num 0]) }, true)
      else
        ({ major := v.major, minor := v.minor, patch := v.patch + 1,
           hasMinor := true, hasPatch := true, pre := [.num 0], build := none,
           original := fmtVer v.major v.minor (v.patch + 1) [.num 0] }, true)
  | some (kind, a, b, c) =>
    let t : Nat × Nat × Nat :=
      if maxExclusive then (a, b, c)
      else
        match kind with
        | 1 => (a + 1, b, c)
        | 2 => (a, b + 1, c)
        | _ => (a, b, c + 1)
    ({ major := t.1, minor := t.2.1, patch := t.2.2, hasMinor := true, hasPatch := true,
       pre := [.num 0], build := none, original := fmtVer t.1 t.2.1 t.2.2 [.num 0] }, true)

/-- The `Range` configuration (`options.go`): raw bound strings plus
exclusivity flags and the prerelease-at-floor toggle. -/
structure RangeC where
  min : List Char := []
  max : List Char := []
  minExclusive : Bool := false
  maxExclusive : Bool := false
  includePrerelease : Bool := false

/-- `Range.Enabled`: a range is active when either bound string is nonempty. -/
def RangeC.enabled (r : RangeC) : Bool :=
  !r.min.isEmpty || !r.max.isEmpty

/-- `clipRange` of `range.go`: compile each nonempty bound and keep only
versions inside; a bound that fails to compile (ok flag false) is treated
as absent. -/
def clipRange (vs : List Semver) (r : RangeC) : List Semver :=
  let minC : Semver × Bool × Bool :=
    if r.min.isEmpty then (default, false, false)
    else compileMin r.min r.minExclusive r.includePrerelease
  let maxC : Semver × Bool :=
    if r.max.isEmpty then (default, false)
    else compileMaxExclusive r.max r.maxExclusive
  vs.filter fun v =>
    (if minC.2.2 then
      match v.comp minC.1 with
      | .lt => false
      | .eq => !minC.2.1
      | .gt => true
     else true)
    &&
    (if maxC.2 then
      match v.comp maxC.1 with
      | .lt => true
      | _ => false
     else true)

/-- The internal record of the current pipeline (`rec` in the source): raw
tag, parsed version, input position. An invalid tag keeps the zero value in
`ver` (its `valid` shape is `ver.pre = [] ∧ ver.original = []`; validity is
tracked by `parseChars` succeeding). -/
structure TagRec where
  raw : List Char := []
  ver : Semver := {}
  idx : Nat := 0
deriving DecidableEq

/-- The dedup key of the source (`dkey` / the key of `deduplicateSemver`):
(major, minor, patch, prerelease); build metadata excluded by design. -/
def dedupKey (v : Semver) : Nat × Nat × Nat × List PreId :=
  (v.major, v.minor, v.patch, v.pre)

/-- Loop of `deduplicate`: the `seen` set is modelled as the list of keys
already emitted. -/
def dedupAux (seen : List (Nat × Nat × Nat × List PreId)) : List TagRec → List TagRec
  | [] => []
  | r :: rs =>
    if dedupKey r.ver ∈ seen then dedupAux seen rs
    else r :: dedupAux (dedupKey r.ver :: seen) rs

/-- `deduplicate` of the current pipeline: keep the first occurrence of
each (major, minor, patch, prerelease) key, in input order. -/
def deduplicate (l : List TagRec) : List TagRec :=
  dedupAux [] l

/-- Same loop on bare `Semver` values (`deduplicateSemver` of `filter.go`). -/
def dedupSemAux (seen : List (Nat × Nat × Nat × List PreId)) : List Semver → List Semver
  | [] => []
  | v :: vs =>
    if dedupKey v ∈ seen then dedupSemAux seen vs
    else v :: dedupSemAux (dedupKey v :: seen) vs

/-- `deduplicateSemver` of `filter.go`. -/
def deduplicateSemver (l : List Semver) : List Semver :=
  dedupSemAux [] l

/-- The 64-bit key `pack` of `aggregateMinor`:
`uint64(maj) << 32 | uint64(min & 0xffffffff)` on nonnegative inputs
(the negative guard of the source is unreachable for parsed versions). -/
def packMM (maj minV : Nat) : Nat :=
  (maj * 2 ^ 32) % 2 ^ 64 + minV % 2 ^ 32

/-- The inverse of `packMM` on bounded inputs (high 32 bits, low 32 bits). -/
def unpackMM (k : Nat) : Nat × Nat :=
  (k / 2 ^ 32, k % 2 ^ 32)

/-- One step of the `aggregateMinor` loop. The Go map is modelled as an
association list with shadowing on update (`lookup` finds the newest
binding); `order` records each key at its first appearance. -/
def aggMinorStep (st : List (Nat × TagRec) × List Nat) (r : TagRec) :
    List (Nat × TagRec) × List Nat :=
  let k := packMM r.ver.major r.ver.minor
  match st.1.lookup k with
  | some b =>
    if r.ver.comp b.ver = .gt ∨ (r.ver.comp b.ver = .eq ∧ r.idx < b.idx) then
      ((k, r) :: st.1, st.2)
    else st
  | none => ((k, r) :: st.1, st.2 ++ [k])

/-- `aggregateMinor` of the current pipeline: best fact per packed
(major, minor) key, emitted in order of each key's first appearance. -/
def aggregateMinor (l : List TagRec) : List TagRec :=
  let st := l.foldl aggMinorStep ([], [])
  st.2.filterMap fun k => st.1.lookup k

/-- The strict `less` closure of `sortSemver` (`sort.SliceStable`):
version precedence first, then raw-string lexicographic order in the sort
direction, then input position. -/
def semLessB (asc : Bool) (a b : TagRec) : Bool :=
  match a.ver.comp b.ver with
  | .eq =>
    if a.raw ≠ b.raw then
      if asc then compareChars a.raw b.raw = .lt else compareChars a.raw b.raw = .gt
    else a.idx < b.idx
  | c => if asc then c = .lt else c = .gt

/-- `sortSemver` of the current pipeline: a stable sort by `semLessB`.
Since the comparator is a strict total order on records with distinct
input positions, the sorted result is the unique ordered permutation, so
any correct sorting algorithm is a faithful model of `sort.SliceStable`. -/
def sortSemver (l : List TagRec) (asc : Bool) : List TagRec :=
  List.insertionSort (fun a b => semLessB asc b a = false) l

/-- `parseAll` of the current pipeline: parse every tag, keeping input
positions; the second component counts the valid ones. -/
def parseAll (l : List (List Char)) : List TagRec × Nat :=
  let recs := ((List.range l.length).zip l).map fun p =>
    match parseChars p.2 with
    | some v => { raw := p.2, ver := v, idx := p.1 : TagRec }
    | none => { raw := p.2, idx := p.1 : TagRec }
  (recs, (l.filter fun s => (parseChars s).isSome).length)

/-- Aggregation depth (`Depth` in `options.go`). -/
inductive Depth where
  | patch
  | minor
  | major
  | latest
deriving DecidableEq

/-- Final output ordering (`SortMode` in `options.go`). -/
inductive SortMode where
  | none
  | asc
  | desc
deriving DecidableEq

/-- Leading-`v` acceptance policy (the v-prefix mode of `options.go`). -/
inductive VPrefixMode where
  | any
  | vreq
  | vnone
deriving DecidableEq

/-- Release-form bitmask (`Format` in `options.go`). -/
abbrev Format := Nat

/-- `FormatXYZ`. -/
def formatXYZ : Format := 1

/-- `FormatXY`. -/
def formatXY : Format := 2

/-- `FormatX`. -/
def formatX : Format := 4

/-- `FormatAll`. -/
def formatAll : Format := 7

/-- The Selection Policy (`Options` in `options.go`, the revision carrying
`ReleaseOnly`; regex filters are modelled as opaque raw-tag predicates,
`Limit` as a natural number with 0 meaning unlimited). -/
structure Options where
  filterSemver : Bool := false
  releaseOnly : Bool := false
  dedup : Bool := false
  outputCanonical : Bool := false
  strictSemver : Bool := false
  excludeSignatures : Bool := false
  includeRe : Option (List Char → Bool) := none
  excludeRe : Option (List Char → Bool) := none
  depth : Depth := .patch
  format : Format := 0
  sort : SortMode := .none
  vpref : VPrefixMode := .any
  range : RangeC := {}
  limit : Nat := 0

/-- `Options.normalized` (`options.go`): apply the implicit defaults —
release-only implies semver gating, and in release-only mode a zero format
mask defaults to `FormatXYZ`. -/
def Options.normalized (o : Options) : Options :=
  let o1 := if o.releaseOnly = true ∧ o.filterSemver = false then { o with filterSemver := true } else o
  if o1.releaseOnly = true ∧ o1.format = 0 then { o1 with format := formatXYZ } else o1

/-- `hasLeadingV` of `filter.go`. -/
def hasLeadingV (s : List Char) : Bool :=
  match s with
  | c :: _ => c = 'v' ∨ c = 'V'
  | [] => false

/-- One hex digit, any case (`utils.go` signature check). -/
def isHexAny (c : Char) : Bool :=
  c.isDigit || (decide ('a' ≤ c) && decide (c ≤ 'f')) || (decide ('A' ≤ c) && decide (c ≤ 'F'))

/-- `isSigTag` of `utils.go`: `sha256-` + 64 any-case hex digits + `.sig`. -/
def isSigTag (s : List Char) : Bool :=
  s.length = 75 && s.take 7 = "sha256-".data && s.drop 71 = ".sig".data
    && ((s.drop 7).take 64).all isHexAny

/-- `prefilterTag` of `filter.go`: the cheap raw gates (v-prefix policy,
signature drop, include/exclude patterns) before parsing. -/
def prefilterTag (t : List Char) (opt : Options) : Bool :=
  (match opt.vpref with
   | .vreq => hasLeadingV t
   | .vnone => !hasLeadingV t
   | .any => true)
  && !(opt.excludeSignatures && isSigTag t)
  && (match opt.includeRe with | some re => re t | none => true)
  && (match opt.excludeRe with | some re => !re t | none => true)

/-- `Semver.IsRelease`: no prerelease and no build metadata. -/
def Semver.isRelease (v : Semver) : Bool :=
  v.pre.isEmpty && v.build.isNone

/-- `formatAllowed` of `filter.go`: map the release-form mask to the
parsed shape flags. -/
def formatAllowed (v : Semver) (mask : Format) : Bool :=
  if v.hasPatch then mask &&& formatXYZ ≠ 0
  else if v.hasMinor then mask &&& formatXY ≠ 0
  else mask &&& formatX ≠ 0

/-- `parseCandidate` of `filter.go`: parse once, then apply the
release-only gate and the form mask. -/
def parseCandidate (t : List Char) (opt : Options) : Option Semver :=
  match parseChars t with
  | none => none
  | some v =>
    if opt.filterSemver = false ∧ opt.releaseOnly = false then some v
    else if opt.releaseOnly then
      if v.isRelease && formatAllowed v opt.format then some v else none
    else some v

/-- Output selection (`pick` of `filter.go`): canonical rendering
(`vMAJOR.MINOR.PATCH[-PRERELEASE]`, build stripped, absent segments
zero-filled) or the original tag text. -/
def pick (v : Semver) (canonical : Bool) : List Char :=
  if canonical then 'v' :: fmtVer v.major v.minor v.patch v.pre else v.original

/-- `projectOut` of `filter.go`. -/
def projectOut (l : List Semver) (canonical : Bool) : List (List Char) :=
  l.map (pick · canonical)

/-- `capStrings` of `utils.go`: truncate to `limit` items when
`0 < limit < length`, otherwise return the list unchanged. -/
def capStrings (l : List (List Char)) (limit : Nat) : List (List Char) :=
  if 0 < limit ∧ limit < l.length then l.take limit else l

/-- First-appearance order of (major, minor) keys, used to model the Go
map iteration in `latestPerMinor` (the subsequent global sort makes the
collection order irrelevant up to `comp` ties). -/
def firstKeysMM (vs : List Semver) : List (Nat × Nat) :=
  vs.foldl (fun acc v => if (v.major, v.minor) ∈ acc then acc else acc ++ [(v.major, v.minor)]) []

/-- The per-key winner of the `latestPerMinor` map: first occurrence
seeds, a later entry replaces only when strictly greater. -/
def bestForKeyMM (k : Nat × Nat) (vs : List Semver) : Option Semver :=
  vs.foldl (fun cur v =>
    if (v.major, v.minor) = k then
      match cur with
      | none => some v
      | some c => if v.comp c = .gt then some v else some c
    else cur) none

/-- `latestPerMinor` of `filter.go`: best release per (major, minor),
then a global descending sort by `Compare`. -/
def latestPerMinor (vs : List Semver) : List Semver :=
  List.insertionSort (fun a b => a.comp b ≠ .lt) ((firstKeysMM vs).filterMap (bestForKeyMM · vs))

/-- First-appearance order of major keys (`latestPerMajor` map model). -/
def firstKeysM (vs : List Semver) : List Nat :=
  vs.foldl (fun acc v => if v.major ∈ acc then acc else acc ++ [v.major]) []

/-- The per-key winner of the `latestPerMajor` map. -/
def bestForKeyM (k : Nat) (vs : List Semver) : Option Semver :=
  vs.foldl (fun cur v =>
    if v.major = k then
      match cur with
      | none => some v
      | some c => if v.comp c = .gt then some v else some c
    else cur) none

/-- `latestPerMajor` of `filter.go`. -/
def latestPerMajor (vs : List Semver) : List Semver :=
  List.insertionSort (fun a b => a.comp b ≠ .lt) ((firstKeysM vs).filterMap (bestForKeyM · vs))

/-- `Filter` of `filter.go`: normalize the policy, run the raw prefilter;
on the fast path (no semantic gating) just cap; otherwise parse and gate,
clip by range, deduplicate when requested or canonicalizing, aggregate by
depth, project and cap. -/
def FilterT (l : List (List Char)) (o : Options) : List (List Char) :=
  let opt := o.normalized
  if opt.filterSemver = false ∧ opt.releaseOnly = false then
    capStrings (l.filter (prefilterTag · opt)) opt.limit
  else
    let vers := l.filterMap fun t =>
      if prefilterTag t opt then parseCandidate t opt else none
    let vers1 := if opt.range.enabled then clipRange vers opt.range else vers
    let vers2 := if opt.dedup || opt.outputCanonical then deduplicateSemver vers1 else vers1
    match opt.depth with
    | .minor => capStrings (projectOut (latestPerMinor vers2) opt.outputCanonical) opt.limit
    | .major => capStrings (projectOut (latestPerMajor vers2) opt.outputCanonical) opt.limit
    | .latest =>
      match vers2 with
      | [] => []
      | b :: rest =>
        let best := rest.foldl (fun best x => if x.comp best = .gt then x else best) b
        capStrings [pick best opt.outputCanonical] opt.limit
    | .patch => capStrings (vers2.map (pick · opt.outputCanonical)) opt.limit

/-- `normalizeShorthand` (`normalize.go`): expand `X` / `X.Y` to a full
triple for comparison, stripping the leading lowercase `v`; anything that
is not a release shorthand or full release triple only loses the `v`. -/
def normalizeShorthand (tag : List Char) : List Char :=
  let t := stripLowV tag
  match classifyBound tag with
  | some (3, _, _, _) => t
  | some (2, _, _, _) => t ++ ".0".data
  | some (1, _, _, _) => t ++ ".0.0".data
  | _ => t

/-- The parsing loop of `Sort` (`sort.go`): parse every tag (after
shorthand normalization when requested), keeping the original; the loop
aborts with `none` as soon as one tag fails to parse. -/
def parseItems (ns : Bool) : List (List Char) → Option (List (Semver × List Char))
  | [] => some []
  | t :: ts =>
    match parseChars (if ns then normalizeShorthand t else t) with
    | none => none
    | some v => (parseItems ns ts).map ((v, t) :: ·)

/-- `sortLex` of `sort.go`: plain lexicographic sort (ascending for
`SortAsc`, descending otherwise). -/
def sortLex (l : List (List Char)) (mode : SortMode) : List (List Char) :=
  if mode = .asc then List.insertionSort (fun a b => compareChars a b ≠ .gt) l
  else List.insertionSort (fun a b => compareChars a b ≠ .lt) l

/-- `Sort` of `sort.go`: no-op for `SortNone` or short lists; semver
precedence sort when every tag parses (after optional shorthand
normalization), otherwise the all-or-nothing lexicographic fallback. -/
def SortT (l : List (List Char)) (mode : SortMode) (ns : Bool) : List (List Char) :=
  if mode = .none ∨ l.length < 2 then l
  else
    match parseItems ns l with
    | none => sortLex l mode
    | some arr =>
      (List.insertionSort
        (fun a b => if mode = .asc then b.1.comp a.1 ≠ .lt else b.1.comp a.1 ≠ .gt) arr).map
        (fun p => p.2)

/-- `Select` (`api.go`, current revision): filter with the limit masked
out, sort when requested, then apply the limit — top-N semantics. -/
def SelectT (l : List (List Char)) (opt : Options) : List (List Char) :=
  let out := FilterT l { opt with limit := 0 }
  let out2 := if opt.sort ≠ SortMode.none then SortT out opt.sort opt.releaseOnly else out
  capStrings out2 opt.limit

theorem compareChars_cons_iff_lt (x y : Char) (as bs : List Char) :
    compareChars (x :: as) (y :: bs) = .lt ↔ x < y ∨ (x = y ∧ compareChars as bs = .lt) := by
  simp only [compareChars]
  rcases lt_trichotomy x y with h | h | h
  · simp [h]
  · simp [h, lt_irrefl]
  · simp [not_lt_of_gt h, h, ne_of_gt h]

theorem compareChars_cons_iff_eq (x y : Char) (as bs : List Char) :
    compareChars (x :: as) (y :: bs) = .eq ↔ x = y ∧ compareChars as bs = .eq := by
  simp only [compareChars]
  rcases lt_trichotomy x y with h | h | h
  · simp [h, ne_of_lt h]
  · simp [h, lt_irrefl]
  · simp [not_lt_of_gt h, h, ne_of_gt h]

theorem compareChars_cons_iff_gt (x y : Char) (as bs : List Char) :
    compareChars (x :: as) (y :: bs) = .gt ↔ y < x ∨ (x = y ∧ compareChars as bs = .gt) := by
  simp only [compareChars]
  rcases lt_trichotomy x y with h | h | h
  · simp [h, ne_of_lt h, not_lt_of_gt h]
  · simp [h, lt_irrefl]
  · simp [not_lt_of_gt h, h]

theorem compareChars_self (a : List Char) : compareChars a a = .eq := by
  induction a with
  | nil => rfl
  | cons x as ih => simpa [compareChars_cons_iff_eq]

theorem compareChars_eq_iff (a b : List Char) : compareChars a b = .eq ↔ a = b := by
  induction a generalizing b with
  | nil => cases b <;> simp [compareChars]
  | cons x as ih =>
    cases b with
    | nil => simp [compareChars]
    | cons y bs => simp [compareChars_cons_iff_eq, ih]

theorem compareChars_swap (a b : List Char) : compareChars a b = (compareChars b a).swap := by
  induction a generalizing b with
  | nil => cases b <;> simp [compareChars, Ordering.swap]
  | cons x as ih =>
    cases b with
    | nil => simp [compareChars, Ordering.swap]
    | cons y bs =>
      rcases lt_trichotomy x y with h | h | h
      · simp [compareChars, h, not_lt_of_gt h, ne_of_lt h, Ordering.swap]
      · subst h
        simp [compareChars, lt_irrefl, ih bs]
      · simp [compareChars, h, not_lt_of_gt h, ne_of_gt h, Ordering.swap]

theorem compareChars_lt_trans {a b c : List Char} (h1 : compareChars a b = .lt)
    (h2 : compareChars b c = .lt) : compareChars a c = .lt := by
  induction a generalizing b c with
  | nil =>
    cases b with
    | nil => exact absurd h1 (by simp [compareChars])
    | cons y bs => cases c with
      | nil => exact absurd h2 (by simp [compareChars])
      | cons z cs => simp [compareChars]
  | cons x as ih =>
    cases b with
    | nil => exact absurd h1 (by simp [compareChars])
    | cons y bs =>
      cases c with
      | nil => exact absurd h2 (by simp [compareChars])
      | cons z cs =>
        rw [compareChars_cons_iff_lt] at h1 h2 ⊢
        rcases h1 with h1 | ⟨rfl, h1⟩
        · rcases h2 with h2 | ⟨rfl, h2⟩
          · exact Or.inl (lt_trans h1 h2)
          · exact Or.inl h1
        · rcases h2 with h2 | ⟨rfl, h2⟩
          · exact Or.inl h2
          · exact Or.inr ⟨rfl, ih h1 h2⟩

theorem idCompare_self (i : PreId) : idCompare i i = .eq := by
  cases i with
  | num n => simp [idCompare, Nat.compare_eq_eq]
  | alpha s => simp [idCompare, compareChars_self]

theorem idCompare_eq_iff (i j : PreId) : idCompare i j = .eq ↔ i = j := by
  cases i <;> cases j <;> simp [idCompare, Nat.compare_eq_eq, compareChars_eq_iff]

theorem idCompare_swap (i j : PreId) : idCompare i j = (idCompare j i).swap := by
  cases i with
  | num m =>
    cases j with
    | num n =>
      rcases Nat.lt_trichotomy m n with h | h | h
      · simp [idCompare, Nat.compare_eq_lt.mpr h, Nat.compare_eq_gt.mpr h, Ordering.swap]
      · subst h
        simp [idCompare, Nat.compare_eq_eq.mpr rfl, Ordering.swap]
      · simp [idCompare, Nat.compare_eq_gt.mpr h, Nat.compare_eq_lt.mpr h, Ordering.swap]
    | alpha t => simp [idCompare, Ordering.swap]
  | alpha s =>
    cases j with
    | num n => simp [idCompare, Ordering.swap]
    | alpha t =>
      simp only [idCompare]
      exact compareChars_swap s t

theorem idCompare_lt_trans {i j k : PreId} (h1 : idCompare i j = .lt)
    (h2 : idCompare j k = .lt) : idCompare i k = .lt := by
  cases i with
  | num a =>
    cases j with
    | num b =>
      cases k with
      | num c =>
        simp only [idCompare, Nat.compare_eq_lt] at h1 h2 ⊢
        omega
      | alpha t => simp [idCompare]
    | alpha t =>
      cases k with
      | num c =>
        simp only [idCompare] at h2
        exact absurd h2 (by decide)
      | alpha u => simp [idCompare]
  | alpha s =>
    cases j with
    | num b =>
      simp only [idCompare] at h1
      exact absurd h1 (by decide)
    | alpha t =>
      cases k with
      | num c =>
        simp only [idCompare] at h2
        exact absurd h2 (by decide)
      | alpha u =>
        simp only [idCompare] at h1 h2 ⊢
        exact compareChars_lt_trans h1 h2

theorem preCompare_self (p : List PreId) : preCompare p p = .eq := by
  induction p with
  | nil => rfl
  | cons i p ih => simp [preCompare, idCompare_self, ih]

theorem preCompare_eq_iff (p q : List PreId) : preCompare p q = .eq ↔ p = q := by
  induction p generalizing q with
  | nil => cases q <;> simp [preCompare]
  | cons i p ih =>
    cases q with
    | nil => simp [preCompare]
    | cons j q =>
      simp only [preCompare]
      cases ho : idCompare i j
      · constructor
        · intro hx
          exact Ordering.noConfusion hx
        · rintro ⟨rfl, -⟩
          rw [idCompare_self] at ho
          exact Ordering.noConfusion ho
      · have hij := (idCompare_eq_iff i j).mp ho
        subst hij
        simp [ih]
      · constructor
        · intro hx
          exact Ordering.noConfusion hx
        · rintro ⟨rfl, -⟩
          rw [idCompare_self] at ho
          exact Ordering.noConfusion ho

theorem preCompare_swap (p q : List PreId) : preCompare p q = (preCompare q p).swap := by
  induction p generalizing q with
  | nil => cases q <;> simp [preCompare, Ordering.swap]
  | cons i p ih =>
    cases q with
    | nil => simp [preCompare, Ordering.swap]
    | cons j q =>
      simp only [preCompare, idCompare_swap i j]
      cases ho : idCompare j i
      · rfl
      · exact ih q
      · rfl

theorem preCompare_lt_trans {p q r : List PreId} (h1 : preCompare p q = .lt)
    (h2 : preCompare q r = .lt) : preCompare p r = .lt := by
  induction p generalizing q r with
  | nil =>
    cases q with
    | nil => exact absurd h1 (by simp [preCompare])
    | cons j q =>
      cases r with
      | nil => exact absurd h2 (by simp [preCompare])
      | cons k r => simp [preCompare]
  | cons i p ih =>
    cases q with
    | nil => exact absurd h1 (by simp [preCompare])
    | cons j q =>
      cases r with
      | nil => exact absurd h2 (by simp [preCompare])
      | cons k r =>
        simp only [preCompare] at h1 h2 ⊢
        cases hij : idCompare i j
        · cases hjk : idCompare j k
          · rw [idCompare_lt_trans hij hjk]
          · have hjk2 := (idCompare_eq_iff j k).mp hjk
            rw [← hjk2, hij]
          · rw [hjk] at h2
            exact Ordering.noConfusion h2
        · have hij2 := (idCompare_eq_iff i j).mp hij
          subst hij2
          rw [hij] at h1
          cases hjk : idCompare i k
          · rfl
          · rw [hjk] at h2
            exact ih h1 h2
          · rw [hjk] at h2
            exact Ordering.noConfusion h2
        · rw [hij] at h1
          exact Ordering.noConfusion h1

/-- The prerelease layer of `Semver.comp`, as a strict proposition:
a prerelease sorts below the release of the same triple, two prereleases
compare by identifier precedence. -/
def preLt (p q : List PreId) : Prop :=
  (p ≠ [] ∧ q = []) ∨ (p ≠ [] ∧ q ≠ [] ∧ preCompare p q = .lt)

theorem preLt_trans {p q r : List PreId} (h1 : preLt p q) (h2 : preLt q r) : preLt p r := by
  rcases h1 with ⟨hp, hq⟩ | ⟨hp, hq, hc⟩
  · rcases h2 with ⟨hq2, _⟩ | ⟨hq2, _, _⟩ <;> exact absurd hq hq2
  · rcases h2 with ⟨_, hr⟩ | ⟨_, hr, hc2⟩
    · exact Or.inl ⟨hp, hr⟩
    · exact Or.inr ⟨hp, hr, preCompare_lt_trans hc hc2⟩

theorem Semver.comp_lt_iff (a b : Semver) : a.comp b = .lt ↔
    a.major < b.major ∨ (a.major = b.major ∧ (a.minor < b.minor ∨ (a.minor = b.minor ∧
      (a.patch < b.patch ∨ (a.patch = b.patch ∧ preLt a.pre b.pre))))) := by
  unfold Semver.comp
  rcases Nat.lt_trichotomy a.major b.major with h | h | h
  · simp [Nat.compare_eq_lt.mpr h, h]
  · rw [Nat.compare_eq_eq.mpr h]
    rcases Nat.lt_trichotomy a.minor b.minor with h2 | h2 | h2
    · simp [Nat.compare_eq_lt.mpr h2, h, h2, lt_irrefl]
    · rw [Nat.compare_eq_eq.mpr h2]
      rcases Nat.lt_trichotomy a.patch b.patch with h3 | h3 | h3
      · simp [Nat.compare_eq_lt.mpr h3, h, h2, h3, lt_irrefl]
      · rw [Nat.compare_eq_eq.mpr h3]
        cases hp : a.pre with
        | nil =>
          cases hq : b.pre with
          | nil => simp [h, h2, h3, lt_irrefl, preLt]
          | cons j q => simp [h, h2, h3, lt_irrefl, preLt]
        | cons i p =>
          cases hq : b.pre with
          | nil => simp [h, h2, h3, lt_irrefl, preLt]
          | cons j q => simp [h, h2, h3, lt_irrefl, preLt]
      · simp [Nat.compare_eq_gt.mpr h3, h, h2, lt_irrefl, Nat.lt_asymm h3]
        intro he
        exact absurd (he ▸ h3) (lt_irrefl _)
    · simp [Nat.compare_eq_gt.mpr h2, h, lt_irrefl, Nat.lt_asymm h2]
      intro he
      exact absurd (he ▸ h2) (lt_irrefl _)
  · simp [Nat.compare_eq_gt.mpr h, Nat.lt_asymm h, ne_of_gt h]

theorem Semver.comp_eq_iff (a b : Semver) : a.comp b = .eq ↔
    a.major = b.major ∧ a.minor = b.minor ∧ a.patch = b.patch ∧ a.pre = b.pre := by
  unfold Semver.comp
  rcases Nat.lt_trichotomy a.major b.major with h | h | h
  · simp [Nat.compare_eq_lt.mpr h, ne_of_lt h]
  · rw [Nat.compare_eq_eq.mpr h]
    rcases Nat.lt_trichotomy a.minor b.minor with h2 | h2 | h2
    · simp [Nat.compare_eq_lt.mpr h2, h, ne_of_lt h2]
    · rw [Nat.compare_eq_eq.mpr h2]
      rcases Nat.lt_trichotomy a.patch b.patch with h3 | h3 | h3
      · simp [Nat.compare_eq_lt.mpr h3, h, h2, ne_of_lt h3]
      · rw [Nat.compare_eq_eq.mpr h3]
        cases hp : a.pre with
        | nil =>
          cases hq : b.pre with
          | nil => simp [h, h2, h3]
          | cons j q => simp [h, h2, h3]
        | cons i p =>
          cases hq : b.pre with
          | nil => simp [h, h2, h3]
          | cons j q => simp [h, h2, h3, preCompare_eq_iff]
      · simp [Nat.compare_eq_gt.mpr h3, h, h2, ne_of_gt h3]
    · simp [Nat.compare_eq_gt.mpr h2, h, ne_of_gt h2]
  · simp [Nat.compare_eq_gt.mpr h, ne_of_gt h]

theorem Semver.comp_gt_iff (a b : Semver) : a.comp b = .gt ↔
    b.major < a.major ∨ (a.major = b.major ∧ (b.minor < a.minor ∨ (a.minor = b.minor ∧
      (b.patch < a.patch ∨ (a.patch = b.patch ∧ preLt b.pre a.pre))))) := by
  unfold Semver.comp
  rcases Nat.lt_trichotomy a.major b.major with h | h | h
  · simp [Nat.compare_eq_lt.mpr h, ne_of_lt h, Nat.lt_asymm h]
  · rw [Nat.compare_eq_eq.mpr h]
    rcases Nat.lt_trichotomy a.minor b.minor with h2 | h2 | h2
    · simp [Nat.compare_eq_lt.mpr h2, h, lt_irrefl, Nat.lt_asymm h2, ne_of_lt h2]
    · rw [Nat.compare_eq_eq.mpr h2]
      rcases Nat.lt_trichotomy a.patch b.patch with h3 | h3 | h3
      · simp [Nat.compare_eq_lt.mpr h3, h, h2, lt_irrefl, Nat.lt_asymm h3, ne_of_lt h3]
      · rw [Nat.compare_eq_eq.mpr h3]
        cases hp : a.pre with
        | nil =>
          cases hq : b.pre with
          | nil => simp [h, h2, h3, lt_irrefl, preLt]
          | cons j q => simp [h, h2, h3, lt_irrefl, preLt]
        | cons i p =>
          cases hq : b.pre with
          | nil => simp [h, h2, h3, lt_irrefl, preLt]
          | cons j q =>
            have hiff : preCompare (i :: p) (j :: q) = .gt ↔ preCompare (j :: q) (i :: p) = .lt := by
              rw [preCompare_swap (i :: p) (j :: q)]
              cases hz : preCompare (j :: q) (i :: p) <;> simp [Ordering.swap]
            rw [hiff]
            simp [h, h2, h3, lt_irrefl, preLt]
      · rw [Nat.compare_eq_gt.mpr h3]
        constructor
        · intro _
          exact Or.inr ⟨h, Or.inr ⟨h2, Or.inl h3⟩⟩
        · intro _
          rfl
    · rw [Nat.compare_eq_gt.mpr h2]
      constructor
      · intro _
        exact Or.inr ⟨h, Or.inl h2⟩
      · intro _
        rfl
  · simp [Nat.compare_eq_gt.mpr h, h, ne_of_gt h]

theorem Semver.comp_swap (a b : Semver) : a.comp b = (b.comp a).swap := by
  rcases ho : b.comp a with h | h | h
  · have : a.comp b = .gt := by
      rw [Semver.comp_gt_iff]
      have hx := (Semver.comp_lt_iff b a).mp ho
      tauto
    rw [this]
    rfl
  · have hx := (Semver.comp_eq_iff b a).mp ho
    have : a.comp b = .eq := by
      rw [Semver.comp_eq_iff]
      exact ⟨hx.1.symm, hx.2.1.symm, hx.2.2.1.symm, hx.2.2.2.symm⟩
    rw [this]
    rfl
  · have : a.comp b = .lt := by
      rw [Semver.comp_lt_iff]
      have hx := (Semver.comp_gt_iff b a).mp ho
      tauto
    rw [this]
    rfl

theorem Semver.comp_lt_trans {a b c : Semver} (h1 : a.comp b = .lt)
    (h2 : b.comp c = .lt) : a.comp c = .lt := by
  rw [Semver.comp_lt_iff] at h1 h2 ⊢
  rcases h1 with h1 | ⟨e1, h1⟩
  · rcases h2 with h2 | ⟨e2, h2⟩
    · exact Or.inl (Nat.lt_trans h1 h2)
    · exact Or.inl (e2 ▸ h1)
  · rcases h2 with h2 | ⟨e2, h2⟩
    · exact Or.inl (e1 ▸ h2)
    · refine Or.inr ⟨e1.trans e2, ?_⟩
      rcases h1 with h1 | ⟨f1, h1⟩
      · rcases h2 with h2 | ⟨f2, h2⟩
        · exact Or.inl (Nat.lt_trans h1 h2)
        · exact Or.inl (f2 ▸ h1)
      · rcases h2 with h2 | ⟨f2, h2⟩
        · exact Or.inl (f1 ▸ h2)
        · refine Or.inr ⟨f1.trans f2, ?_⟩
          rcases h1 with h1 | ⟨g1, h1⟩
          · rcases h2 with h2 | ⟨g2, h2⟩
            · exact Or.inl (Nat.lt_trans h1 h2)
            · exact Or.inl (g2 ▸ h1)
          · rcases h2 with h2 | ⟨g2, h2⟩
            · exact Or.inl (g1 ▸ h2)
            · exact Or.inr ⟨g1.trans g2, preLt_trans h1 h2⟩

theorem Semver.comp_congr_left {a b : Semver} (h : a.comp b = .eq) (c : Semver) :
    a.comp c = b.comp c := by
  rw [Semver.comp_eq_iff] at h
  unfold Semver.comp
  rw [h.1, h.2.1, h.2.2.1, h.2.2.2]

theorem Semver.comp_gt_trans {a b c : Semver} (h1 : a.comp b = .gt)
    (h2 : b.comp c = .gt) : a.comp c = .gt := by
  have s1 : b.comp a = .lt := by
    have := Semver.comp_swap a b
    rw [h1] at this
    cases hz : b.comp a <;> rw [hz] at this <;> first | rfl | exact Ordering.noConfusion this
  have s2 : c.comp b = .lt := by
    have := Semver.comp_swap b c
    rw [h2] at this
    cases hz : c.comp b <;> rw [hz] at this <;> first | rfl | exact Ordering.noConfusion this
  have s3 : c.comp a = .lt := Semver.comp_lt_trans s2 s1
  have := Semver.comp_swap a c
  rw [s3] at this
  exact this

theorem capStrings_of_pos {l : List (List Char)} {n : Nat} (h : 0 < n) :
    capStrings l n = l.take n := by
  unfold capStrings
  by_cases hlt : n < l.length
  · simp [h, hlt]
  · simp [h, hlt, List.take_of_length_le (le_of_not_lt hlt)]

/-- C10: `Options.normalized` changes at most `FilterSemver` and `Format`
and leaves every other field equal to the input: with `ReleaseOnly` set it
forces `FilterSemver := true` and defaults a zero `Format` mask to
`FormatXYZ`; with `ReleaseOnly` unset it is the identity. -/
theorem c10_options_normalized_frame (o : Options) :
    (o.releaseOnly = false → o.normalized = o) ∧
    (o.releaseOnly = true →
      o.normalized = { o with filterSemver := true,
                              format := if o.format = 0 then formatXYZ else o.format }) := by
  obtain ⟨fs, ro, dd, oc, ss, es, ir, er, dp, fm, so, vp, rg, lm⟩ := o
  constructor
  · intro h
    simp only at h
    simp [Options.normalized, h]
  · intro h
    simp only at h
    subst h
    by_cases hf : fs = true <;> by_cases hz : fm = 0 <;>
      simp [Options.normalized, hf, hz, Bool.not_eq_true] at *

/-- Witness for C10 at a concrete policy. -/
theorem c10_witness :
    (({ releaseOnly := true } : Options).releaseOnly = true) ∧
    ({ releaseOnly := true } : Options).normalized =
      { releaseOnly := true, filterSemver := true, format := formatXYZ } := by
  refine ⟨rfl, ?_⟩
  have h := (c10_options_normalized_frame { releaseOnly := true }).2 rfl
  simpa using h

/-- C2: `Select` applies the result limit after sorting, not before — with
any sort mode other than `None` and a positive limit, the output is the
first `Limit` elements of the sorted filter result (the filter being run
with the limit masked out); in particular descending sort with limit 2
over `["1.0.0", "2.0.0", "1.5.0"]` yields `["2.0.0", "1.5.0"]`. -/
theorem c2_select_limit_after_sort (l : List (List Char)) (opt : Options)
    (hs : opt.sort ≠ SortMode.none) (hl : 0 < opt.limit) :
    SelectT l opt =
      (SortT (FilterT l { opt with limit := 0 }) opt.sort opt.releaseOnly).take opt.limit ∧
    SelectT ["1.0.0".data, "2.0.0".data, "1.5.0".data] { sort := .desc, limit := 2 } =
      ["2.0.0".data, "1.5.0".data] := by
  constructor
  · simp only [SelectT]
    rw [if_pos hs]
    exact capStrings_of_pos hl
  · decide

/-- Witness for C2 at the example input. -/
theorem c2_witness :
    (({ sort := .desc, limit := 2 } : Options).sort ≠ SortMode.none) ∧
    (0 < ({ sort := .desc, limit := 2 } : Options).limit) ∧
    SelectT ["1.0.0".data, "2.0.0".data, "1.5.0".data] { sort := .desc, limit := 2 } =
      (SortT (FilterT ["1.0.0".data, "2.0.0".data, "1.5.0".data]
        { ({ sort := .desc, limit := 2 } : Options) with limit := 0 })
        SortMode.desc false).take 2 := by
  refine ⟨by decide, by decide, ?_⟩
  exact (c2_select_limit_after_sort ["1.0.0".data, "2.0.0".data, "1.5.0".data]
    { sort := .desc, limit := 2 } (by decide) (by decide)).1

/-- C7: a bound string that is neither a shorthand nor a full version makes
compilation fail with a false ok flag (distinguishable from a successful
compilation), and `clipRange` treats such bounds as absent: with both
bounds unparseable the input list is returned unchanged. -/
theorem c7_unparseable_bound_treated_absent (vs : List Semver) (r : RangeC)
    (h1 : classifyBound r.min = none) (h2 : parseChars r.min = none)
    (h3 : classifyBound r.max = none) (h4 : parseChars r.max = none) :
    (∀ e i, compileMin r.min e i = (default, false, false)) ∧
    (∀ m, compileMaxExclusive r.max m = (default, false)) ∧
    clipRange vs r = vs := by
  have hmin : ∀ e i, compileMin r.min e i = (default, false, false) := by
    intro e i
    unfold compileMin
    rw [h1, h2]
  have hmax : ∀ m, compileMaxExclusive r.max m = (default, false) := by
    intro m
    unfold compileMaxExclusive
    rw [h3, h4]
  refine ⟨hmin, hmax, ?_⟩
  simp only [clipRange, hmin, hmax]
  by_cases hm : r.min.isEmpty <;> by_cases hx : r.max.isEmpty <;>
    simp [hm, hx, List.filter_eq_self]

/-- Witness for C7 at concrete unparseable bounds. -/
theorem c7_witness :
    classifyBound "not-a-version".data = none ∧
    parseChars "not-a-version".data = none ∧
    compileMin "not-a-version".data false true = (default, false, false) ∧
    clipRange [{ major := 1, hasMinor := true, hasPatch := true, original := "1.0.0".data }]
      { min := "not-a-version".data, max := "x.y".data } =
      [{ major := 1, hasMinor := true, hasPatch := true, original := "1.0.0".data }] := by
  refine ⟨by decide, by decide, ?_, ?_⟩
  · exact (c7_unparseable_bound_treated_absent []
      { min := "not-a-version".data, max := "x.y".data }
      (by decide) (by decide) (by decide) (by decide)).1 false true
  · exact (c7_unparseable_bound_treated_absent
      [{ major := 1, hasMinor := true, hasPatch := true, original := "1.0.0".data }]
      { min := "not-a-version".data, max := "x.y".data }
      (by decide) (by decide) (by decide) (by decide)).2.2

/-- Modelled from the spec's words (§4.5), for comparison with the code:
stable first-occurrence-wins deduplication — keep each element and drop
every later element carrying the same key. -/
def firstOcc {α β : Type} [DecidableEq β] (f : α → β) : List α → List α
  | [] => []
  | x :: xs => x :: firstOcc f (xs.filter fun y => decide (f y ≠ f x))
termination_by l => l.length
decreasing_by
  simp only [List.length_cons]
  exact Nat.lt_succ_of_le (List.length_filter_le _ _)

theorem dedupAux_eq_firstOcc (l : List TagRec) : ∀ seen,
    dedupAux seen l = firstOcc (fun r => dedupKey r.ver)
      (l.filter fun r => decide (dedupKey r.ver ∉ seen)) := by
  induction l with
  | nil =>
    intro seen
    simp [dedupAux, firstOcc]
  | cons r rs ih =>
    intro seen
    by_cases hmem : dedupKey r.ver ∈ seen
    · simp [dedupAux, hmem, ih seen]
    · have hstep : dedupAux seen (r :: rs) = r :: dedupAux (dedupKey r.ver :: seen) rs := by
        simp [dedupAux, hmem]
      have hfil : List.filter (fun x => decide (dedupKey x.ver ∉ seen)) (r :: rs) =
          r :: List.filter (fun x => decide (dedupKey x.ver ∉ seen)) rs := by
        simp [List.filter_cons, hmem]
      rw [hstep, hfil]
      simp only [firstOcc]
      rw [ih (dedupKey r.ver :: seen), List.filter_filter]
      have hpred : List.filter (fun x => decide (dedupKey x.ver ∉ dedupKey r.ver :: seen)) rs =
          List.filter (fun y =>
            decide (dedupKey y.ver ≠ dedupKey r.ver) && decide (dedupKey y.ver ∉ seen)) rs := by
        apply List.filter_congr
        intro y _
        by_cases h1 : dedupKey y.ver = dedupKey r.ver <;>
          by_cases h2 : dedupKey y.ver ∈ seen <;> simp [h1, h2]
      rw [hpred]

theorem dedupAux_sublist (l : List TagRec) : ∀ seen, (dedupAux seen l).Sublist l := by
  induction l with
  | nil =>
    intro seen
    simp [dedupAux]
  | cons r rs ih =>
    intro seen
    by_cases hmem : dedupKey r.ver ∈ seen
    · simp only [dedupAux, if_pos hmem]
      exact (ih seen).cons r
    · simp only [dedupAux, if_neg hmem]
      exact (ih (dedupKey r.ver :: seen)).cons₂ r

/-- C8: deduplication keeps exactly the first occurrence of each
(major, minor, patch, prerelease) key — build metadata is not part of the
key, so tags differing only in build collapse to the earlier one — and the
output preserves the input's first-occurrence order (it is a sublist of
the input). -/
theorem c8_dedup_first_occurrence (l : List TagRec) :
    deduplicate l = firstOcc (fun r => dedupKey r.ver) l ∧
    (deduplicate l).Sublist l ∧
    (deduplicate (parseAll ["1.2.3+a".data, "1.0.0".data, "1.2.3+b".data]).1).map TagRec.raw =
      ["1.2.3+a".data, "1.0.0".data] := by
  refine ⟨?_, dedupAux_sublist l [], by decide⟩
  have h := dedupAux_eq_firstOcc l []
  simpa [deduplicate] using h

theorem dedupAux_idem (l : List TagRec) : ∀ seen,
    dedupAux seen (dedupAux seen l) = dedupAux seen l := by
  induction l with
  | nil =>
    intro seen
    simp [dedupAux]
  | cons r rs ih =>
    intro seen
    by_cases hmem : dedupKey r.ver ∈ seen
    · simp only [dedupAux, if_pos hmem]
      exact ih seen
    · simp only [dedupAux, if_neg hmem]
      rw [ih (dedupKey r.ver :: seen)]

/-- C9: deduplication is idempotent — deduplicating an already
deduplicated list changes nothing. -/
theorem c9_dedup_idempotent (l : List TagRec) :
    deduplicate (deduplicate l) = deduplicate l :=
  dedupAux_idem l []

theorem compareChars_gt_iff (a b : List Char) :
    compareChars a b = .gt ↔ compareChars b a = .lt := by
  rw [compareChars_swap a b]
  cases hz : compareChars b a <;> simp [Ordering.swap]

theorem lexLe_trans {a b c : List Char} (h1 : compareChars a b ≠ .gt)
    (h2 : compareChars b c ≠ .gt) : compareChars a c ≠ .gt := by
  intro hac
  cases h1a : compareChars a b with
  | gt => exact h1 h1a
  | eq =>
    have hab := (compareChars_eq_iff a b).mp h1a
    rw [← hab] at h2
    exact h2 hac
  | lt =>
    cases h2a : compareChars b c with
    | gt => exact h2 h2a
    | eq =>
      have hbc := (compareChars_eq_iff b c).mp h2a
      rw [hbc] at h1a
      have hca := (compareChars_gt_iff a c).mp hac
      have := compareChars_lt_trans hca h1a
      rw [compareChars_self] at this
      exact Ordering.noConfusion this
    | lt =>
      have hx := compareChars_lt_trans h1a h2a
      have hca := (compareChars_gt_iff a c).mp hac
      have := compareChars_lt_trans hca hx
      rw [compareChars_self] at this
      exact Ordering.noConfusion this

theorem lexLe_total (a b : List Char) :
    compareChars a b ≠ .gt ∨ compareChars b a ≠ .gt := by
  cases hz : compareChars a b with
  | gt =>
    right
    intro hx
    have h1 := (compareChars_gt_iff a b).mp hz
    have h2 := (compareChars_gt_iff b a).mp hx
    have := compareChars_lt_trans h1 h2
    rw [compareChars_self] at this
    exact Ordering.noConfusion this
  | eq =>
    left
    simp [hz]
  | lt =>
    left
    simp [hz]

theorem lexGe_trans {a b c : List Char} (h1 : compareChars a b ≠ .lt)
    (h2 : compareChars b c ≠ .lt) : compareChars a c ≠ .lt := by
  intro hac
  have h1s : compareChars b a ≠ .gt := fun hx => h1 ((compareChars_gt_iff b a).mp hx)
  have h2s : compareChars c b ≠ .gt := fun hx => h2 ((compareChars_gt_iff c b).mp hx)
  have hgt : compareChars c a = .gt := (compareChars_gt_iff c a).mpr hac
  exact lexLe_trans h2s h1s hgt

theorem lexGe_total (a b : List Char) :
    compareChars a b ≠ .lt ∨ compareChars b a ≠ .lt := by
  rcases lexLe_total b a with h | h
  · left
    intro hx
    exact h ((compareChars_gt_iff b a).mpr hx)
  · right
    intro hx
    exact h ((compareChars_gt_iff a b).mpr hx)

theorem parseItems_none {ns : Bool} {l : List (List Char)}
    (hx : ∃ t ∈ l, parseChars (if ns then normalizeShorthand t else t) = none) :
    parseItems ns l = none := by
  induction l with
  | nil => simp at hx
  | cons t ts ih =>
    rcases hx with ⟨u, hu, hp⟩
    rcases List.mem_cons.mp hu with hu | hu
    · subst hu
      simp [parseItems, hp]
    · unfold parseItems
      cases hq : parseChars (if ns then normalizeShorthand t else t)
      · rfl
      · rw [ih ⟨u, hu, hp⟩]
        rfl

theorem insertionSort_singleton {α : Type} (r : α → α → Prop) [DecidableRel r] (x : α) :
    List.insertionSort r [x] = [x] := rfl

/-- C4: when any input tag fails to parse as a version (after the optional
shorthand normalization), `Sort` with mode ascending or descending falls
back to plain lexicographic ordering over the whole list — the output is
`sortLex`, a lexicographic permutation of the input sorted in the
requested direction; mixed numeric/lexicographic comparison never happens.
In particular `["2.0.0", "1.0.0", "foo"]` sorted ascending is
`["1.0.0", "2.0.0", "foo"]`. -/
theorem c4_sort_mixed_fallback_lex (l : List (List Char)) (mode : SortMode) (ns : Bool)
    (hm : mode ≠ SortMode.none)
    (hx : ∃ t ∈ l, parseChars (if ns then normalizeShorthand t else t) = none) :
    SortT l mode ns = sortLex l mode ∧
    (sortLex l mode).Perm l ∧
    (mode = .asc → (sortLex l mode).Pairwise fun a b => compareChars a b ≠ .gt) ∧
    (mode = .desc → (sortLex l mode).Pairwise fun a b => compareChars a b ≠ .lt) ∧
    SortT ["2.0.0".data, "1.0.0".data, "foo".data] .asc false =
      ["1.0.0".data, "2.0.0".data, "foo".data] := by
  refine ⟨?_, ?_, ?_, ?_, by decide⟩
  · by_cases hlen : l.length < 2
    · match l, hlen with
      | [], _ => simp [SortT, sortLex]
      | [t], _ =>
        simp only [SortT, sortLex]
        by_cases ha : mode = SortMode.asc <;>
          simp [ha, insertionSort_singleton]
    · simp only [SortT]
      rw [if_neg (by simp [hm, hlen])]
      rw [parseItems_none hx]
  · by_cases ha : mode = SortMode.asc <;>
      simp [sortLex, ha, List.perm_insertionSort]
  · intro ha
    subst ha
    simp only [sortLex, if_pos rfl]
    haveI : IsTotal (List Char) (fun a b => compareChars a b ≠ .gt) := ⟨lexLe_total⟩
    haveI : IsTrans (List Char) (fun a b => compareChars a b ≠ .gt) :=
      ⟨fun _ _ _ => lexLe_trans⟩
    exact List.sorted_insertionSort _ l
  · intro ha
    subst ha
    simp only [sortLex]
    rw [if_neg (by decide)]
    haveI : IsTotal (List Char) (fun a b => compareChars a b ≠ .lt) := ⟨lexGe_total⟩
    haveI : IsTrans (List Char) (fun a b => compareChars a b ≠ .lt) :=
      ⟨fun _ _ _ => lexGe_trans⟩
    exact List.sorted_insertionSort _ l

/-- Witness for C4 at the example input. -/
theorem c4_witness :
    (SortMode.asc ≠ SortMode.none) ∧
    parseChars "foo".data = none ∧
    SortT ["2.0.0".data, "1.0.0".data, "foo".data] .asc false =
      sortLex ["2.0.0".data, "1.0.0".data, "foo".data] .asc := by
  refine ⟨by decide, by decide, ?_⟩
  exact (c4_sort_mixed_fallback_lex ["2.0.0".data, "1.0.0".data, "foo".data] .asc false
    (by decide) ⟨"foo".data, by decide, by decide⟩).1

theorem splitOnChar_ne_nil (sep : Char) (l : List Char) : splitOnChar sep l ≠ [] := by
  cases l with
  | nil => simp [splitOnChar]
  | cons c cs =>
    unfold splitOnChar
    by_cases h : c = sep
    · simp [h]
    · simp only [if_neg h]
      cases hsp : splitOnChar sep cs <;> simp

/-- Join parts with a separator (left inverse of `splitOnChar`). -/
def joinSep (sep : Char) : List (List Char) → List Char
  | [] => []
  | [p] => p
  | p :: ps => p ++ sep :: joinSep sep ps

theorem joinSep_splitOnChar (sep : Char) (l : List Char) :
    joinSep sep (splitOnChar sep l) = l := by
  induction l with
  | nil => rfl
  | cons c cs ih =>
    unfold splitOnChar
    by_cases h : c = sep
    · subst h
      simp only [if_pos rfl]
      cases hsp : splitOnChar c cs with
      | nil => exact absurd hsp (splitOnChar_ne_nil c cs)
      | cons p ps =>
        rw [hsp] at ih
        simp only [joinSep]
        rw [ih]
        rfl
    · simp only [if_neg h]
      cases hsp : splitOnChar sep cs with
      | nil => exact absurd hsp (splitOnChar_ne_nil sep cs)
      | cons p ps =>
        rw [hsp] at ih
        cases ps with
        | nil =>
          simp only [joinSep] at ih ⊢
          rw [ih]
        | cons q qs =>
          simp only [joinSep] at ih ⊢
          rw [List.cons_append, ih]

theorem parseNumStrict_digits {cs : List Char} {n : Nat} (h : parseNumStrict cs = some n) :
    cs ≠ [] ∧ ∀ ch ∈ cs, ch.isDigit = true := by
  cases cs with
  | nil => exact absurd h (by simp [parseNumStrict])
  | cons c rest =>
    refine ⟨by simp, ?_⟩
    simp only [parseNumStrict] at h
    by_cases hd : (c :: rest).all Char.isDigit
    · intro ch hch
      exact List.all_eq_true.mp hd ch hch
    · rw [if_neg hd] at h
      exact absurd h (by simp)

theorem parseNumStrict_cons_nondigit {c : Char} (h : c.isDigit = false) (rest : List Char) :
    parseNumStrict (c :: rest) = none := by
  have h0 : parseNumStrict (c :: rest) =
      if (c :: rest).all Char.isDigit then
        (if c = '0' ∧ rest ≠ [] then none else some (digitsToNat (c :: rest)))
      else none := rfl
  rw [h0, if_neg]
  intro hall
  have := List.all_eq_true.mp hall c (by simp)
  rw [h] at this
  exact Bool.noConfusion this

theorem stripAnyV_eq_self {c0 : Char} (h1 : c0 ≠ 'v') (h2 : c0 ≠ 'V') (rest : List Char) :
    stripAnyV (c0 :: rest) = c0 :: rest := by
  unfold stripAnyV
  split
  · rename_i heq
    injection heq with hc _
    exact absurd hc h1
  · rename_i heq
    injection heq with hc _
    exact absurd hc h2
  · rfl

theorem stripLowV_eq_self {c0 : Char} (h1 : c0 ≠ 'v') (rest : List Char) :
    stripLowV (c0 :: rest) = c0 :: rest := by
  unfold stripLowV
  split
  · rename_i heq
    injection heq with hc _
    exact absurd hc h1
  · rfl

theorem splitOnChar_cons_ne {c sep : Char} (h : c ≠ sep) (cs : List Char) :
    ∃ p ps, splitOnChar sep cs = p :: ps ∧ splitOnChar sep (c :: cs) = (c :: p) :: ps := by
  cases hsp : splitOnChar sep cs with
  | nil => exact absurd hsp (splitOnChar_ne_nil sep cs)
  | cons p ps =>
    refine ⟨p, ps, rfl, ?_⟩
    unfold splitOnChar
    rw [if_neg h, hsp]

theorem classify_V_none (cs : List Char) : classifyBound ('V' :: cs) = none := by
  obtain ⟨p, ps, _, hsp⟩ := splitOnChar_cons_ne (by decide : ('V' : Char) ≠ '.') cs
  unfold classifyBound
  rw [stripLowV_eq_self (by decide), hsp]
  have hnum := parseNumStrict_cons_nondigit (by decide : ('V' : Char).isDigit = false) p
  match ps with
  | [] => simp [hnum]
  | [y] => simp [hnum]
  | [y, z] => simp [hnum]
  | _ :: _ :: _ :: _ => rfl

theorem stripAny_eq_stripLow_of_classify {cs : List Char} {v : Nat × Nat × Nat × Nat}
    (h : classifyBound cs = some v) : stripAnyV cs = stripLowV cs := by
  cases cs with
  | nil => rfl
  | cons c0 rest =>
    by_cases hv : c0 = 'v'
    · subst hv
      rfl
    · by_cases hV : c0 = 'V'
      · subst hV
        rw [classify_V_none] at h
        exact absurd h (by simp)
      · rw [stripAnyV_eq_self hv hV, stripLowV_eq_self hv]

theorem parseChars_core_strict {cs t : List Char} (hstrip : stripAnyV cs = t)
    (hdig : ∀ ch ∈ t, ch.isDigit = true ∨ ch = '.') :
    parseChars cs =
      (match splitOnChar '.' t with
       | [x] =>
         match parseNumStrict x with
         | some a =>
           some { major := a, hasMinor := false, hasPatch := false,
                  pre := [], build := none, original := cs }
         | none => none
       | [x, y] =>
         match parseNumStrict x, parseNumStrict y with
         | some a, some m =>
           some { major := a, minor := m, hasMinor := true, hasPatch := false,
                  pre := [], build := none, original := cs }
         | _, _ => none
       | [x, y, z] =>
         match parseNumStrict x, parseNumStrict y, parseNumStrict z with
         | some a, some m, some q =>
           some { major := a, minor := m, patch := q, hasMinor := true, hasPatch := true,
                  pre := [], build := none, original := cs }
         | _, _, _ => none
       | _ => none) := by
  have hplus : ∀ ch ∈ t, (ch != '+') = true := by
    intro ch hch
    rcases hdig ch hch with hd | hd
    · simp only [bne_iff_ne, ne_eq]
      intro he
      subst he
      exact absurd hd (by decide)
    · subst hd
      decide
  have hminus : ∀ ch ∈ t, (ch != '-') = true := by
    intro ch hch
    rcases hdig ch hch with hd | hd
    · simp only [bne_iff_ne, ne_eq]
      intro he
      subst he
      exact absurd hd (by decide)
    · subst hd
      decide
  simp only [parseChars]
  rw [hstrip]
  rw [List.takeWhile_eq_self_iff.mpr hplus, List.dropWhile_eq_nil_iff.mpr hplus]
  rw [List.takeWhile_eq_self_iff.mpr hminus, List.dropWhile_eq_nil_iff.mpr hminus]

theorem digits_of_parts3 {t x y z : List Char} {a b c : Nat}
    (hsp : splitOnChar '.' t = [x, y, z])
    (hx : parseNumStrict x = some a) (hy : parseNumStrict y = some b)
    (hz : parseNumStrict z = some c) :
    ∀ ch ∈ t, ch.isDigit = true ∨ ch = '.' := by
  have ht : t = x ++ '.' :: (y ++ '.' :: z) := by
    have := joinSep_splitOnChar '.' t
    rw [hsp] at this
    simp only [joinSep] at this
    rw [← this]
  intro ch hch
  rw [ht] at hch
  simp only [List.mem_append, List.mem_cons] at hch
  rcases hch with h | h | h | h | h
  · exact Or.inl ((parseNumStrict_digits hx).2 ch h)
  · exact Or.inr h
  · exact Or.inl ((parseNumStrict_digits hy).2 ch h)
  · exact Or.inr h
  · exact Or.inl ((parseNumStrict_digits hz).2 ch h)

theorem digits_of_parts2 {t x y : List Char} {a b : Nat}
    (hsp : splitOnChar '.' t = [x, y])
    (hx : parseNumStrict x = some a) (hy : parseNumStrict y = some b) :
    ∀ ch ∈ t, ch.isDigit = true ∨ ch = '.' := by
  have ht : t = x ++ '.' :: y := by
    have := joinSep_splitOnChar '.' t
    rw [hsp] at this
    simp only [joinSep] at this
    rw [← this]
  intro ch hch
  rw [ht] at hch
  simp only [List.mem_append, List.mem_cons] at hch
  rcases hch with h | h | h
  · exact Or.inl ((parseNumStrict_digits hx).2 ch h)
  · exact Or.inr h
  · exact Or.inl ((parseNumStrict_digits hy).2 ch h)

theorem digits_of_parts1 {t x : List Char} {a : Nat}
    (hsp : splitOnChar '.' t = [x]) (hx : parseNumStrict x = some a) :
    ∀ ch ∈ t, ch.isDigit = true ∨ ch = '.' := by
  have ht : t = x := by
    have := joinSep_splitOnChar '.' t
    rw [hsp] at this
    simp only [joinSep] at this
    rw [← this]
  intro ch hch
  rw [ht] at hch
  exact Or.inl ((parseNumStrict_digits hx).2 ch hch)

/-- Bridge between the shorthand regular expressions and the version
parser: a string classified as a release shorthand of kind `k` parses as
exactly that plain release with the matching shape flags, no prerelease
and no build. -/
theorem classify_parse {cs : List Char} {k a b c : Nat}
    (h : classifyBound cs = some (k, a, b, c)) :
    parseChars cs = some { major := a, minor := b, patch := c,
                           hasMinor := decide (2 ≤ k), hasPatch := decide (k = 3),
                           pre := [], build := none, original := cs } := by
  have hstrip : stripAnyV cs = stripLowV cs := stripAny_eq_stripLow_of_classify h
  unfold classifyBound at h
  cases hsp : splitOnChar '.' (stripLowV cs) with
  | nil =>
    rw [hsp] at h
    exact absurd h (by simp)
  | cons x ps =>
    cases ps with
    | nil =>
      rw [hsp] at h
      cases hx : parseNumStrict x with
      | none => simp [hx] at h
      | some a0 =>
        simp only [hx, Option.map_some', Option.some.injEq, Prod.mk.injEq] at h
        obtain ⟨hk, ha, hb, hc⟩ := h
        subst hk
        subst ha
        subst hb
        subst hc
        rw [parseChars_core_strict hstrip (digits_of_parts1 hsp hx), hsp]
        simp [hx]
    | cons y ps2 =>
      cases ps2 with
      | nil =>
        rw [hsp] at h
        cases hx : parseNumStrict x with
        | none => simp [hx] at h
        | some a0 =>
          cases hy : parseNumStrict y with
          | none => simp [hx, hy] at h
          | some b0 =>
            simp only [hx, hy, Option.some.injEq, Prod.mk.injEq] at h
            obtain ⟨hk, ha, hb, hc⟩ := h
            subst hk
            subst ha
            subst hb
            subst hc
            rw [parseChars_core_strict hstrip (digits_of_parts2 hsp hx hy), hsp]
            simp [hx, hy]
      | cons z ps3 =>
        cases ps3 with
        | nil =>
          rw [hsp] at h
          cases hx : parseNumStrict x with
          | none => simp [hx] at h
          | some a0 =>
            cases hy : parseNumStrict y with
            | none => simp [hx, hy] at h
            | some b0 =>
              cases hz : parseNumStrict z with
              | none => simp [hx, hy, hz] at h
              | some c0 =>
                simp only [hx, hy, hz, Option.some.injEq, Prod.mk.injEq] at h
                obtain ⟨hk, ha, hb, hc⟩ := h
                subst hk
                subst ha
                subst hb
                subst hc
                rw [parseChars_core_strict hstrip (digits_of_parts3 hsp hx hy hz), hsp]
                simp [hx, hy, hz]
        | cons w ps4 =>
          rw [hsp] at h
          exact absurd h (by simp)

/-- C6: for every shorthand floor bound (bare major `X` or `X.Y`), the
compiled floor is the zero-filled triple carrying the lowest-possible
prerelease marker (`-0`) exactly when include-prerelease-at-floor is
enabled, and the plain release otherwise; consequently range clipping with
floor `1.2` retains `1.2.0-alpha` only when the marker is enabled, while
`1.2.0` itself is retained in both cases. -/
theorem c6_shorthand_floor_marker (cs : List Char) (k a b : Nat) (ex inc : Bool)
    (h : classifyBound cs = some (k, a, b, 0)) (hk : k = 1 ∨ k = 2) :
    compileMin cs ex inc =
      ({ major := a, minor := b, patch := 0, hasMinor := true, hasPatch := true,
         pre := if inc then [.num 0] else [], build := none,
         original := fmtVer a b 0 (if inc then [.num 0] else []) }, ex, true) ∧
    FilterT ["1.2.0-alpha".data, "1.2.0".data]
      { filterSemver := true, range := { min := "1.2".data, includePrerelease := true } } =
      ["1.2.0-alpha".data, "1.2.0".data] ∧
    FilterT ["1.2.0-alpha".data, "1.2.0".data]
      { filterSemver := true, range := { min := "1.2".data } } =
      ["1.2.0".data] := by
  refine ⟨?_, by decide, by decide⟩
  unfold compileMin
  rw [h]
  have hlt : k < 3 := by
    rcases hk with rfl | rfl <;> decide
  cases inc with
  | false => simp
  | true => simp [hlt]

/-- Witness for C6 at the bound `1.2`. -/
theorem c6_witness :
    classifyBound "1.2".data = some (2, 1, 2, 0) ∧
    compileMin "1.2".data false true =
      ({ major := 1, minor := 2, patch := 0, hasMinor := true, hasPatch := true,
         pre := [.num 0], build := none, original := "1.2.0-0".data }, false, true) := by
  refine ⟨by decide, ?_⟩
  rw [(c6_shorthand_floor_marker "1.2".data 2 1 2 false true (by decide) (Or.inr rfl)).1]
  decide

theorem idCompare_num0_min (i : PreId) : idCompare (.num 0) i ≠ .gt := by
  cases i with
  | num n => simp [idCompare, Nat.compare_eq_gt]
  | alpha s => simp [idCompare]

theorem idCompare_num0_min' (i : PreId) : idCompare i (.num 0) ≠ .lt := by
  cases i with
  | num n => simp [idCompare, Nat.compare_eq_lt]
  | alpha s => simp [idCompare]

theorem preCompare_ge_num0 {w : List PreId} (hw : w ≠ []) :
    preCompare w [.num 0] ≠ .lt := by
  cases w with
  | nil => exact absurd rfl hw
  | cons j wq =>
    simp only [preCompare]
    cases ho : idCompare j (.num 0) with
    | lt => exact absurd ho (idCompare_num0_min' j)
    | eq => cases wq <;> simp [preCompare]
    | gt => simp

theorem preCompare_append0_lt (p : List PreId) : preCompare p (p ++ [.num 0]) = .lt := by
  induction p with
  | nil => rfl
  | cons i q ih =>
    simp only [List.cons_append, preCompare, idCompare_self]
    exact ih

theorem preCompare_append0_least {p w : List PreId} (h : preCompare p w = .lt) :
    preCompare w (p ++ [.num 0]) ≠ .lt := by
  induction p generalizing w with
  | nil =>
    cases w with
    | nil => exact absurd h (by simp [preCompare])
    | cons j wq => exact preCompare_ge_num0 (by simp)
  | cons i q ih =>
    cases w with
    | nil => exact absurd h (by simp [preCompare])
    | cons j wq =>
      simp only [preCompare] at h
      simp only [List.cons_append, preCompare]
      cases hij : idCompare i j with
      | lt =>
        have hji : idCompare j i = .gt := by
          have := idCompare_swap j i
          rw [hij] at this
          cases hz : idCompare j i <;> rw [hz] at this <;>
            first | rfl | exact Ordering.noConfusion this
        rw [hji]
        simp
      | eq =>
        have hji : idCompare j i = .eq := by
          rw [(idCompare_eq_iff i j).mp hij, idCompare_self]
        rw [hji]
        rw [hij] at h
        exact ih h
      | gt =>
        rw [hij] at h
        exact absurd h (by simp)

theorem preLt_append0 {p : List PreId} (hp : p ≠ []) : preLt p (p ++ [.num 0]) :=
  Or.inr ⟨hp, by simp, preCompare_append0_lt p⟩

theorem comp_next_pre_lt {v c : Semver} (hp : v.pre ≠ [])
    (h1 : c.major = v.major) (h2 : c.minor = v.minor) (h3 : c.patch = v.patch)
    (h4 : c.pre = v.pre ++ [.num 0]) : v.comp c = .lt := by
  rw [Semver.comp_lt_iff]
  refine Or.inr ⟨h1.symm, Or.inr ⟨h2.symm, Or.inr ⟨h3.symm, ?_⟩⟩⟩
  rw [h4]
  exact preLt_append0 hp

theorem comp_next_pre_least {v w c : Semver} (hp : v.pre ≠ [])
    (h1 : c.major = v.major) (h2 : c.minor = v.minor) (h3 : c.patch = v.patch)
    (h4 : c.pre = v.pre ++ [.num 0]) (hlt : v.comp w = .lt) : w.comp c ≠ .lt := by
  intro hwc
  rw [Semver.comp_lt_iff] at hlt hwc
  rw [h1, h2, h3, h4] at hwc
  rcases hlt with hn | ⟨e1, hn | ⟨e2, hn | ⟨e3, hpre⟩⟩⟩ <;>
    rcases hwc with hm | ⟨f1, hm | ⟨f2, hm | ⟨f3, hqre⟩⟩⟩ <;>
    try omega
  rcases hpre with ⟨hp1, hp2⟩ | ⟨hp1, hp2, hp3⟩
  · rcases hqre with ⟨hq1, _⟩ | ⟨hq1, _, _⟩ <;> exact hq1 hp2
  · rcases hqre with ⟨hq1, hq2⟩ | ⟨hq1, hq2, hq3⟩
    · exact absurd hq2 (by simp)
    · exact absurd hq3 (preCompare_append0_least hp3)

theorem comp_next_rel_lt {v c : Semver} (hp : v.pre = [])
    (h1 : c.major = v.major) (h2 : c.minor = v.minor) (h3 : c.patch = v.patch + 1)
    (h4 : c.pre = [.num 0]) : v.comp c = .lt := by
  rw [Semver.comp_lt_iff]
  exact Or.inr ⟨h1.symm, Or.inr ⟨h2.symm, Or.inl (by omega)⟩⟩

theorem comp_next_rel_least {v w c : Semver} (hp : v.pre = [])
    (h1 : c.major = v.major) (h2 : c.minor = v.minor) (h3 : c.patch = v.patch + 1)
    (h4 : c.pre = [.num 0]) (hlt : v.comp w = .lt) : w.comp c ≠ .lt := by
  intro hwc
  rw [Semver.comp_lt_iff] at hlt hwc
  rw [h1, h2, h3, h4] at hwc
  rcases hlt with hn | ⟨e1, hn | ⟨e2, hn | ⟨e3, hpre⟩⟩⟩ <;>
    rcases hwc with hm | ⟨f1, hm | ⟨f2, hm | ⟨f3, hqre⟩⟩⟩ <;>
    try omega
  all_goals try
    rcases hpre with ⟨hp1, _⟩ | ⟨hp1, _, _⟩ <;> exact hp1 hp
  all_goals
    rcases hqre with ⟨hq1, hq2⟩ | ⟨hq1, hq2, hq3⟩
  · exact absurd hq2 (by simp)
  · exact absurd hq3 (preCompare_ge_num0 hq1)

/-- C1: for a Range whose Max is a full version string taken inclusively,
the compiled ceiling is the smallest version strictly greater than the
bound — with a prerelease the ceiling appends a `.0` identifier to it, for
a plain release it is the next patch with the `-0` marker; consequently
clipping with inclusive max `1.2.3` keeps `1.2.3` and drops `1.2.4-0`,
and with exclusive max `1.2.3` drops `1.2.3+build.1`, which compares
equal to `1.2.3`. -/
theorem c1_inclusive_ceiling_least (cs : List Char) (v : Semver)
    (hp : parseChars cs = some v) (hfull : v.hasPatch = true) :
    ((compileMaxExclusive cs false).2 = true ∧
     (v.pre = [] →
        (compileMaxExclusive cs false).1.major = v.major ∧
        (compileMaxExclusive cs false).1.minor = v.minor ∧
        (compileMaxExclusive cs false).1.patch = v.patch + 1 ∧
        (compileMaxExclusive cs false).1.pre = [.num 0]) ∧
     (v.pre ≠ [] →
        (compileMaxExclusive cs false).1.major = v.major ∧
        (compileMaxExclusive cs false).1.minor = v.minor ∧
        (compileMaxExclusive cs false).1.patch = v.patch ∧
        (compileMaxExclusive cs false).1.pre = v.pre ++ [.num 0]) ∧
     v.comp (compileMaxExclusive cs false).1 = .lt ∧
     (∀ w, v.comp w = .lt → w.comp (compileMaxExclusive cs false).1 ≠ .lt)) ∧
    (clipRange [(parseChars "1.2.3".data).getD default, (parseChars "1.2.4-0".data).getD default]
        { max := "1.2.3".data } =
      [(parseChars "1.2.3".data).getD default] ∧
     ((parseChars "1.2.3+build.1".data).getD default).comp
        ((parseChars "1.2.3".data).getD default) = .eq ∧
     clipRange [(parseChars "1.2.3+build.1".data).getD default]
        { max := "1.2.3".data, maxExclusive := true } = []) := by
  refine ⟨?_, by decide, by decide, by decide⟩
  have hkey : (compileMaxExclusive cs false).2 = true ∧
      (compileMaxExclusive cs false).1.major = v.major ∧
      (compileMaxExclusive cs false).1.minor = v.minor ∧
      ((v.pre = [] ∧ (compileMaxExclusive cs false).1.patch = v.patch + 1 ∧
        (compileMaxExclusive cs false).1.pre = [.num 0]) ∨
       (v.pre ≠ [] ∧ (compileMaxExclusive cs false).1.patch = v.patch ∧
        (compileMaxExclusive cs false).1.pre = v.pre ++ [.num 0])) := by
    cases hcl : classifyBound cs with
    | some tup =>
      obtain ⟨k, a, b, c0⟩ := tup
      have hpv := classify_parse hcl
      rw [hp] at hpv
      injection hpv with hv
      subst hv
      simp only at hfull
      have hk : k = 3 := of_decide_eq_true hfull
      subst hk
      unfold compileMaxExclusive
      rw [hcl]
      simp
    | none =>
      unfold compileMaxExclusive
      rw [hcl, hp]
      by_cases hvp : v.pre = []
      · simp [hvp]
      · simp [hvp]
  obtain ⟨hok, h1, h2, h3⟩ := hkey
  refine ⟨hok, ?_, ?_, ?_, ?_⟩
  · intro hpre
    rcases h3 with ⟨_, hpa, hpr⟩ | ⟨hne, _, _⟩
    · exact ⟨h1, h2, hpa, hpr⟩
    · exact absurd hpre hne
  · intro hpre
    rcases h3 with ⟨heq, _, _⟩ | ⟨_, hpa, hpr⟩
    · exact absurd heq hpre
    · exact ⟨h1, h2, hpa, hpr⟩
  · rcases h3 with ⟨hpe, hpa, hpr⟩ | ⟨hpe, hpa, hpr⟩
    · exact comp_next_rel_lt hpe h1 h2 hpa hpr
    · exact comp_next_pre_lt hpe h1 h2 hpa hpr
  · intro w hw
    rcases h3 with ⟨hpe, hpa, hpr⟩ | ⟨hpe, hpa, hpr⟩
    · exact comp_next_rel_least hpe h1 h2 hpa hpr hw
    · exact comp_next_pre_least hpe h1 h2 hpa hpr hw

/-- Witness for C1 at the prerelease bound `1.2.3-alpha`. -/
theorem c1_witness :
    parseChars "1.2.3-alpha".data =
      some { major := 1, minor := 2, patch := 3, hasMinor := true, hasPatch := true,
             pre := [.alpha "alpha".data], build := none,
             original := "1.2.3-alpha".data } ∧
    (compileMaxExclusive "1.2.3-alpha".data false).1.pre =
      [.alpha "alpha".data, .num 0] ∧
    Semver.comp { major := 1, minor := 2, patch := 3, hasMinor := true, hasPatch := true,
                  pre := [.alpha "alpha".data], build := none,
                  original := "1.2.3-alpha".data }
      (compileMaxExclusive "1.2.3-alpha".data false).1 = .lt := by
  have H := c1_inclusive_ceiling_least "1.2.3-alpha".data
    { major := 1, minor := 2, patch := 3, hasMinor := true, hasPatch := true,
      pre := [.alpha "alpha".data], build := none, original := "1.2.3-alpha".data }
    (by decide) (by decide)
  refine ⟨by decide, ?_, H.1.2.2.2.1⟩
  have hx := (H.1.2.2.1 (by decide)).2.2.2
  simpa using hx

theorem Semver.comp_self (a : Semver) : a.comp a = .eq := by
  rw [Semver.comp_eq_iff]
  exact ⟨rfl, rfl, rfl, rfl⟩

theorem Semver.comp_congr_right {a b : Semver} (h : a.comp b = .eq) (c : Semver) :
    c.comp a = c.comp b := by
  have h1 := Semver.comp_swap c a
  have h2 := Semver.comp_swap c b
  rw [h1, h2, Semver.comp_congr_left h c]

theorem Semver.comp_eq_symm {a b : Semver} (h : a.comp b = .eq) : b.comp a = .eq := by
  rw [Semver.comp_eq_iff] at h ⊢
  exact ⟨h.1.symm, h.2.1.symm, h.2.2.1.symm, h.2.2.2.symm⟩

theorem Semver.comp_eq_trans {a b c : Semver} (h1 : a.comp b = .eq) (h2 : b.comp c = .eq) :
    a.comp c = .eq := by
  rw [Semver.comp_congr_left h1]
  exact h2

theorem Semver.comp_lt_iff_gt {a b : Semver} : a.comp b = .lt ↔ b.comp a = .gt := by
  rw [Semver.comp_swap a b]
  cases hz : b.comp a <;> simp [Ordering.swap]

theorem semLessB_true_iff (asc : Bool) (a b : TagRec) :
    semLessB asc a b = true ↔
      (if asc then a.ver.comp b.ver = .lt else a.ver.comp b.ver = .gt) ∨
      (a.ver.comp b.ver = .eq ∧ a.raw ≠ b.raw ∧
        (if asc then compareChars a.raw b.raw = .lt else compareChars a.raw b.raw = .gt)) ∨
      (a.ver.comp b.ver = .eq ∧ a.raw = b.raw ∧ a.idx < b.idx) := by
  unfold semLessB
  cases hc : a.ver.comp b.ver <;> cases asc <;>
    by_cases hr : a.raw = b.raw <;> simp [hc, hr]

/-- The record-level equivalence invisible to `semLessB`: equal precedence,
equal raw text, equal input position. -/
def recEqv (a b : TagRec) : Prop :=
  a.ver.comp b.ver = .eq ∧ a.raw = b.raw ∧ a.idx = b.idx

theorem semLessB_asymm {asc : Bool} {a b : TagRec} (h : semLessB asc a b = true) :
    semLessB asc b a = false := by
  cases hz : semLessB asc b a with
  | false => rfl
  | true =>
    exfalso
    rw [semLessB_true_iff] at h hz
    cases asc with
    | true =>
      simp only [if_true] at h hz
      rcases h with h | ⟨he, hr, hcc⟩ | ⟨he, hr, hi⟩ <;>
        rcases hz with hz | ⟨ze, zr, zcc⟩ | ⟨ze, zr, zi⟩
      · have hx := Semver.comp_lt_iff_gt.mp h
        rw [hz] at hx
        exact Ordering.noConfusion hx
      · have hx := Semver.comp_eq_symm ze
        rw [h] at hx
        exact Ordering.noConfusion hx
      · have hx := Semver.comp_eq_symm ze
        rw [h] at hx
        exact Ordering.noConfusion hx
      · have hx := Semver.comp_eq_symm he
        rw [hz] at hx
        exact Ordering.noConfusion hx
      · have hx := (compareChars_gt_iff b.raw a.raw).mpr hcc
        rw [zcc] at hx
        exact Ordering.noConfusion hx
      · exact hr zr.symm
      · have hx := Semver.comp_eq_symm he
        rw [hz] at hx
        exact Ordering.noConfusion hx
      · exact zr hr.symm
      · omega
    | false =>
      simp only [Bool.false_eq_true, if_false] at h hz
      rcases h with h | ⟨he, hr, hcc⟩ | ⟨he, hr, hi⟩ <;>
        rcases hz with hz | ⟨ze, zr, zcc⟩ | ⟨ze, zr, zi⟩
      · have hx := Semver.comp_lt_iff_gt.mpr hz
        rw [h] at hx
        exact Ordering.noConfusion hx
      · have hx := Semver.comp_eq_symm ze
        rw [h] at hx
        exact Ordering.noConfusion hx
      · have hx := Semver.comp_eq_symm ze
        rw [h] at hx
        exact Ordering.noConfusion hx
      · have hx := Semver.comp_eq_symm he
        rw [hz] at hx
        exact Ordering.noConfusion hx
      · have hx := (compareChars_gt_iff a.raw b.raw).mp hcc
        rw [zcc] at hx
        exact Ordering.noConfusion hx
      · exact hr zr.symm
      · have hx := Semver.comp_eq_symm he
        rw [hz] at hx
        exact Ordering.noConfusion hx
      · exact zr hr.symm
      · omega

theorem compareChars_gt_trans {a b c : List Char} (h1 : compareChars a b = .gt)
    (h2 : compareChars b c = .gt) : compareChars a c = .gt := by
  rw [compareChars_gt_iff] at h1 h2 ⊢
  exact compareChars_lt_trans h2 h1

theorem semLessB_false_iff (asc : Bool) (a b : TagRec) :
    semLessB asc b a = false ↔ (semLessB asc a b = true ∨ recEqv a b) := by
  constructor
  · intro hf
    cases hc : a.ver.comp b.ver with
    | lt =>
      cases asc with
      | true =>
        left
        rw [semLessB_true_iff]
        simp only [if_true]
        exact Or.inl hc
      | false =>
        exfalso
        have hz : semLessB false b a = true := by
          rw [semLessB_true_iff]
          simp only [Bool.false_eq_true, if_false]
          exact Or.inl (Semver.comp_lt_iff_gt.mp hc)
        rw [hz] at hf
        exact Bool.noConfusion hf
    | gt =>
      cases asc with
      | false =>
        left
        rw [semLessB_true_iff]
        simp only [Bool.false_eq_true, if_false]
        exact Or.inl hc
      | true =>
        exfalso
        have hz : semLessB true b a = true := by
          rw [semLessB_true_iff]
          simp only [if_true]
          exact Or.inl (Semver.comp_lt_iff_gt.mpr hc)
        rw [hz] at hf
        exact Bool.noConfusion hf
    | eq =>
      by_cases hr : a.raw = b.raw
      · rcases Nat.lt_trichotomy a.idx b.idx with hi | hi | hi
        · left
          rw [semLessB_true_iff]
          exact Or.inr (Or.inr ⟨hc, hr, hi⟩)
        · exact Or.inr ⟨hc, hr, hi⟩
        · exfalso
          have hz : semLessB asc b a = true := by
            rw [semLessB_true_iff]
            exact Or.inr (Or.inr ⟨Semver.comp_eq_symm hc, hr.symm, hi⟩)
          rw [hz] at hf
          exact Bool.noConfusion hf
      · cases hcc : compareChars a.raw b.raw with
        | eq => exact absurd ((compareChars_eq_iff _ _).mp hcc) hr
        | lt =>
          cases asc with
          | true =>
            left
            rw [semLessB_true_iff]
            exact Or.inr (Or.inl ⟨hc, hr, by simp only [if_true]; exact hcc⟩)
          | false =>
            exfalso
            have hz : semLessB false b a = true := by
              rw [semLessB_true_iff]
              refine Or.inr (Or.inl ⟨Semver.comp_eq_symm hc, fun hy => hr hy.symm, ?_⟩)
              simp only [Bool.false_eq_true, if_false]
              exact (compareChars_gt_iff b.raw a.raw).mpr hcc
            rw [hz] at hf
            exact Bool.noConfusion hf
        | gt =>
          cases asc with
          | false =>
            left
            rw [semLessB_true_iff]
            exact Or.inr (Or.inl ⟨hc, hr, by simp only [Bool.false_eq_true, if_false]; exact hcc⟩)
          | true =>
            exfalso
            have hz : semLessB true b a = true := by
              rw [semLessB_true_iff]
              refine Or.inr (Or.inl ⟨Semver.comp_eq_symm hc, fun hy => hr hy.symm, ?_⟩)
              simp only [if_true]
              exact (compareChars_gt_iff a.raw b.raw).mp hcc
            rw [hz] at hf
            exact Bool.noConfusion hf
  · intro h
    rcases h with h | ⟨he, hr, hi⟩
    · exact semLessB_asymm h
    · cases hfz : semLessB asc b a with
      | false => rfl
      | true =>
        exfalso
        rw [semLessB_true_iff] at hfz
        have he' := Semver.comp_eq_symm he
        rcases hfz with hz | ⟨ze, zr, zcc⟩ | ⟨ze, zr, zi⟩
        · cases asc <;> simp only [if_true, Bool.false_eq_true, if_false] at hz <;>
            rw [he'] at hz <;> exact Ordering.noConfusion hz
        · exact zr hr.symm
        · omega

theorem semLessB_trans {asc : Bool} {a b c : TagRec} (h1 : semLessB asc a b = true)
    (h2 : semLessB asc b c = true) : semLessB asc a c = true := by
  rw [semLessB_true_iff] at h1 h2 ⊢
  cases asc with
  | true =>
    simp only [if_true] at h1 h2 ⊢
    rcases h1 with h1 | ⟨e1, r1, c1⟩ | ⟨e1, r1, i1⟩ <;>
      rcases h2 with h2 | ⟨e2, r2, c2⟩ | ⟨e2, r2, i2⟩
    · exact Or.inl (Semver.comp_lt_trans h1 h2)
    · refine Or.inl ?_
      rw [← Semver.comp_congr_right e2 a.ver]
      exact h1
    · refine Or.inl ?_
      rw [← Semver.comp_congr_right e2 a.ver]
      exact h1
    · refine Or.inl ?_
      rw [Semver.comp_congr_left e1 c.ver]
      exact h2
    · have hcc := compareChars_lt_trans c1 c2
      refine Or.inr (Or.inl ⟨Semver.comp_eq_trans e1 e2, ?_, hcc⟩)
      intro he
      rw [he, compareChars_self] at hcc
      exact Ordering.noConfusion hcc
    · refine Or.inr (Or.inl ⟨Semver.comp_eq_trans e1 e2, ?_, ?_⟩)
      · rw [← r2]
        exact r1
      · rw [← r2]
        exact c1
    · refine Or.inl ?_
      rw [Semver.comp_congr_left e1 c.ver]
      exact h2
    · refine Or.inr (Or.inl ⟨Semver.comp_eq_trans e1 e2, ?_, ?_⟩)
      · rw [r1]
        exact r2
      · rw [r1]
        exact c2
    · exact Or.inr (Or.inr ⟨Semver.comp_eq_trans e1 e2, r1.trans r2, Nat.lt_trans i1 i2⟩)
  | false =>
    simp only [Bool.false_eq_true, if_false] at h1 h2 ⊢
    rcases h1 with h1 | ⟨e1, r1, c1⟩ | ⟨e1, r1, i1⟩ <;>
      rcases h2 with h2 | ⟨e2, r2, c2⟩ | ⟨e2, r2, i2⟩
    · exact Or.inl (Semver.comp_gt_trans h1 h2)
    · refine Or.inl ?_
      rw [← Semver.comp_congr_right e2 a.ver]
      exact h1
    · refine Or.inl ?_
      rw [← Semver.comp_congr_right e2 a.ver]
      exact h1
    · refine Or.inl ?_
      rw [Semver.comp_congr_left e1 c.ver]
      exact h2
    · have hcc := compareChars_gt_trans c1 c2
      refine Or.inr (Or.inl ⟨Semver.comp_eq_trans e1 e2, ?_, hcc⟩)
      intro he
      rw [he, compareChars_self] at hcc
      exact Ordering.noConfusion hcc
    · refine Or.inr (Or.inl ⟨Semver.comp_eq_trans e1 e2, ?_, ?_⟩)
      · rw [← r2]
        exact r1
      · rw [← r2]
        exact c1
    · refine Or.inl ?_
      rw [Semver.comp_congr_left e1 c.ver]
      exact h2
    · refine Or.inr (Or.inl ⟨Semver.comp_eq_trans e1 e2, ?_, ?_⟩)
      · rw [r1]
        exact r2
      · rw [r1]
        exact c2
    · exact Or.inr (Or.inr ⟨Semver.comp_eq_trans e1 e2, r1.trans r2, Nat.lt_trans i1 i2⟩)

theorem semLessB_congr_left {asc : Bool} {a b : TagRec} (h : recEqv a b) (c : TagRec) :
    semLessB asc a c = semLessB asc b c := by
  obtain ⟨he, hr, hi⟩ := h
  unfold semLessB
  rw [Semver.comp_congr_left he, hr, hi]

theorem semLessB_congr_right {asc : Bool} {b c : TagRec} (h : recEqv b c) (a : TagRec) :
    semLessB asc a b = semLessB asc a c := by
  obtain ⟨he, hr, hi⟩ := h
  unfold semLessB
  rw [Semver.comp_congr_right he, hr, hi]

theorem semLessB_le_trans {asc : Bool} {a b c : TagRec}
    (h1 : semLessB asc b a = false) (h2 : semLessB asc c b = false) :
    semLessB asc c a = false := by
  rw [semLessB_false_iff] at h1 h2 ⊢
  rcases h1 with h1 | h1 <;> rcases h2 with h2 | h2
  · exact Or.inl (semLessB_trans h1 h2)
  · refine Or.inl ?_
    rw [← semLessB_congr_right h2 a]
    exact h1
  · refine Or.inl ?_
    rw [semLessB_congr_left h1 c]
    exact h2
  · exact Or.inr ⟨Semver.comp_eq_trans h1.1 h2.1, h1.2.1.trans h2.2.1, h1.2.2.trans h2.2.2⟩

theorem semLessB_le_total (asc : Bool) (a b : TagRec) :
    semLessB asc b a = false ∨ semLessB asc a b = false := by
  cases hz : semLessB asc b a with
  | false => exact Or.inl rfl
  | true => exact Or.inr (semLessB_asymm hz)

theorem semLessB_of_le_of_ne {asc : Bool} {a b : TagRec} (h : semLessB asc b a = false)
    (hne : a.idx ≠ b.idx) : semLessB asc a b = true := by
  rw [semLessB_false_iff] at h
  rcases h with h | h
  · exact h
  · exact absurd h.2.2 hne

/-- C5: when every input parses (the records carry distinct input
positions), `sortSemver` produces a permutation of the records ordered by
the strict comparator — version precedence first, then raw-string
lexicographic order in the direction of the mode, then input position —
so the result is a single fully deterministic total order even for
equal-precedence or equal-text inputs. -/
theorem c5_sortsemver_deterministic (l : List TagRec) (asc : Bool)
    (hidx : l.Pairwise fun a b => a.idx ≠ b.idx) :
    (sortSemver l asc).Perm l ∧
    (sortSemver l asc).Pairwise fun a b => semLessB asc a b = true := by
  have hperm : (sortSemver l asc).Perm l := List.perm_insertionSort _ l
  refine ⟨hperm, ?_⟩
  haveI : IsTotal TagRec (fun a b => semLessB asc b a = false) :=
    ⟨fun a b => semLessB_le_total asc a b⟩
  haveI : IsTrans TagRec (fun a b => semLessB asc b a = false) :=
    ⟨fun _ _ _ h1 h2 => semLessB_le_trans h1 h2⟩
  have hs := List.sorted_insertionSort (fun a b => semLessB asc b a = false) l
  have hidx2 : (sortSemver l asc).Pairwise fun a b => a.idx ≠ b.idx :=
    (hperm.pairwise_iff fun hxy => hxy.symm).mpr hidx
  exact (hs.and hidx2).imp fun h => semLessB_of_le_of_ne h.1 h.2

/-- Witness for C5 at an input with a precedence tie (build-only
difference) and a text tie. -/
theorem c5_witness :
    ((parseAll ["1.2.3+b".data, "1.2.3+a".data, "1.0.0".data]).1.Pairwise
      fun a b => a.idx ≠ b.idx) ∧
    (sortSemver (parseAll ["1.2.3+b".data, "1.2.3+a".data, "1.0.0".data]).1 true).Perm
      (parseAll ["1.2.3+b".data, "1.2.3+a".data, "1.0.0".data]).1 ∧
    (sortSemver (parseAll ["1.2.3+b".data, "1.2.3+a".data, "1.0.0".data]).1 true).Pairwise
      fun a b => semLessB true a b = true := by
  refine ⟨by decide, ?_, ?_⟩
  · exact (c5_sortsemver_deterministic
      (parseAll ["1.2.3+b".data, "1.2.3+a".data, "1.0.0".data]).1 true (by decide)).1
  · exact (c5_sortsemver_deterministic
      (parseAll ["1.2.3+b".data, "1.2.3+a".data, "1.0.0".data]).1 true (by decide)).2

/-- The packed group key of a record in `aggregateMinor`. -/
def recKey (r : TagRec) : Nat :=
  packMM r.ver.major r.ver.minor

/-- The semantic (major, minor) group key of the claim. -/
def pairKey (r : TagRec) : Nat × Nat :=
  (r.ver.major, r.ver.minor)

/-- The replacement test of the aggregation loops: strictly higher
precedence, or equal precedence at an earlier input position. -/
def betterRec (r b : TagRec) : Prop :=
  r.ver.comp b.ver = .gt ∨ (r.ver.comp b.ver = .eq ∧ r.idx < b.idx)

instance (r b : TagRec) : Decidable (betterRec r b) := by
  unfold betterRec
  infer_instance

theorem betterRec_irrefl (b : TagRec) : ¬ betterRec b b := by
  unfold betterRec
  rw [Semver.comp_self]
  simp

theorem notBetter_iff {x b : TagRec} : ¬ betterRec x b ↔
    (x.ver.comp b.ver = .lt ∨ (x.ver.comp b.ver = .eq ∧ b.idx ≤ x.idx)) := by
  unfold betterRec
  cases hc : x.ver.comp b.ver <;> simp [hc]

theorem betterRec_trans {a b c : TagRec} (h1 : betterRec a b) (h2 : betterRec b c) :
    betterRec a c := by
  rcases h1 with h1 | ⟨h1, hi1⟩
  · rcases h2 with h2 | ⟨h2, hi2⟩
    · exact Or.inl (Semver.comp_gt_trans h1 h2)
    · refine Or.inl ?_
      rw [← Semver.comp_congr_right h2 a.ver]
      exact h1
  · rcases h2 with h2 | ⟨h2, hi2⟩
    · refine Or.inl ?_
      rw [Semver.comp_congr_left h1 c.ver]
      exact h2
    · exact Or.inr ⟨Semver.comp_eq_trans h1 h2, Nat.lt_trans hi1 hi2⟩

theorem betterRec_transport {r b c0 : TagRec} (h1 : betterRec r b) (h2 : ¬ betterRec c0 b) :
    betterRec r c0 := by
  rw [notBetter_iff] at h2
  rcases h1 with h1 | ⟨h1, hi1⟩
  · rcases h2 with h2 | ⟨h2, hi2⟩
    · refine Or.inl ?_
      have hb : b.ver.comp c0.ver = .gt := Semver.comp_lt_iff_gt.mp h2
      exact Semver.comp_gt_trans h1 hb
    · refine Or.inl ?_
      rw [← Semver.comp_congr_right (Semver.comp_eq_symm h2) r.ver]
      exact h1
  · rcases h2 with h2 | ⟨h2, hi2⟩
    · refine Or.inl ?_
      have hb : b.ver.comp c0.ver = .gt := Semver.comp_lt_iff_gt.mp h2
      rw [Semver.comp_congr_left h1 c0.ver]
      exact hb
    · refine Or.inr ⟨?_, ?_⟩
      · exact Semver.comp_eq_trans h1 (Semver.comp_eq_symm h2)
      · omega

/-- One step of the per-key winner fold (the map-update rule of
`aggregateMinor`, restricted to one key). -/
def bestStep (k : Nat) (cur : Option TagRec) (r : TagRec) : Option TagRec :=
  if recKey r = k then
    match cur with
    | none => some r
    | some b => if betterRec r b then some r else some b
  else cur

/-- The per-key winner over a whole record list. -/
def bestOf (k : Nat) (l : List TagRec) : Option TagRec :=
  List.foldl (bestStep k) none l

/-- First-appearance order of the packed keys (the `order` slice of
`aggregateMinor`). -/
def keysInOrder (l : List TagRec) : List Nat :=
  l.foldl (fun acc r => if recKey r ∈ acc then acc else acc ++ [recKey r]) []

theorem keysInOrder_foldl_mem (l : List TagRec) : ∀ (acc : List Nat) (k : Nat),
    (k ∈ l.foldl (fun acc r => if recKey r ∈ acc then acc else acc ++ [recKey r]) acc ↔
      k ∈ acc ∨ ∃ r ∈ l, recKey r = k) := by
  induction l with
  | nil =>
    intro acc k
    simp
  | cons r rs ih =>
    intro acc k
    simp only [List.foldl_cons]
    by_cases hm : recKey r ∈ acc
    · rw [if_pos hm, ih]
      simp only [List.mem_cons]
      constructor
      · rintro (h | ⟨x, hx, hk⟩)
        · exact Or.inl h
        · exact Or.inr ⟨x, Or.inr hx, hk⟩
      · rintro (h | ⟨x, hx | hx, hk⟩)
        · exact Or.inl h
        · subst hx
          exact Or.inl (hk ▸ hm)
        · exact Or.inr ⟨x, hx, hk⟩
    · rw [if_neg hm, ih]
      constructor
      · rintro (h | ⟨x, hx, hk⟩)
        · rcases List.mem_append.mp h with h | h
          · exact Or.inl h
          · have hkr : k = recKey r := by simpa using h
            exact Or.inr ⟨r, List.mem_cons_self r rs, hkr.symm⟩
        · exact Or.inr ⟨x, List.mem_cons_of_mem r hx, hk⟩
      · rintro (h | ⟨x, hx, hk⟩)
        · exact Or.inl (List.mem_append.mpr (Or.inl h))
        · rcases List.mem_cons.mp hx with rfl | hx2
          · refine Or.inl (List.mem_append.mpr (Or.inr ?_))
            simp [hk]
          · exact Or.inr ⟨x, hx2, hk⟩

theorem bestStep_foldl_isSome (k : Nat) (l : List TagRec) : ∀ (cur : Option TagRec),
    ((l.foldl (bestStep k) cur).isSome = true ↔
      cur.isSome = true ∨ ∃ r ∈ l, recKey r = k) := by
  induction l with
  | nil =>
    intro cur
    simp
  | cons r rs ih =>
    intro cur
    simp only [List.foldl_cons]
    rw [ih]
    simp only [List.mem_cons]
    by_cases hk : recKey r = k
    · constructor
      · intro _
        exact Or.inr ⟨r, Or.inl rfl, hk⟩
      · intro _
        left
        unfold bestStep
        rw [if_pos hk]
        cases cur with
        | none => rfl
        | some b =>
          by_cases hbet : betterRec r b <;> simp [hbet]
    · unfold bestStep
      rw [if_neg hk]
      constructor
      · rintro (h | ⟨x, hx, hxk⟩)
        · exact Or.inl h
        · exact Or.inr ⟨x, Or.inr hx, hxk⟩
      · rintro (h | ⟨x, hx | hx, hxk⟩)
        · exact Or.inl h
        · subst hx
          exact absurd hxk hk
        · exact Or.inr ⟨x, hx, hxk⟩

theorem keysInOrder_mem (l : List TagRec) (k : Nat) :
    k ∈ keysInOrder l ↔ ∃ r ∈ l, recKey r = k := by
  rw [keysInOrder, keysInOrder_foldl_mem]
  simp

theorem bestOf_isSome (l : List TagRec) (k : Nat) :
    (bestOf k l).isSome = true ↔ ∃ r ∈ l, recKey r = k := by
  rw [bestOf, bestStep_foldl_isSome]
  simp

theorem lookup_cons_self (k : Nat) (r : TagRec) (es : List (Nat × TagRec)) :
    ((k, r) :: es).lookup k = some r := by
  simp [List.lookup_cons]

theorem lookup_cons_ne {k k2 : Nat} (h : k2 ≠ k) (r : TagRec) (es : List (Nat × TagRec)) :
    ((k, r) :: es).lookup k2 = es.lookup k2 := by
  rw [List.lookup_cons, beq_eq_false_iff_ne.mpr h]

theorem lookup_pack_self (r : TagRec) (es : List (Nat × TagRec)) :
    ((packMM r.ver.major r.ver.minor, r) :: es).lookup (recKey r) = some r :=
  lookup_cons_self (packMM r.ver.major r.ver.minor) r es

theorem lookup_pack_ne {r : TagRec} {k : Nat} (h : ¬ recKey r = k) (es : List (Nat × TagRec)) :
    ((packMM r.ver.major r.ver.minor, r) :: es).lookup k = es.lookup k :=
  lookup_cons_ne (fun he => h he.symm) r es

theorem aggMinorStep_none (st : List (Nat × TagRec) × List Nat) (r : TagRec)
    (h : st.1.lookup (packMM r.ver.major r.ver.minor) = none) :
    aggMinorStep st r =
      ((packMM r.ver.major r.ver.minor, r) :: st.1, st.2 ++ [packMM r.ver.major r.ver.minor]) := by
  simp only [aggMinorStep]
  rw [h]

theorem aggMinorStep_some_better (st : List (Nat × TagRec) × List Nat) (r : TagRec)
    (b : TagRec) (h : st.1.lookup (packMM r.ver.major r.ver.minor) = some b)
    (hbet : r.ver.comp b.ver = .gt ∨ (r.ver.comp b.ver = .eq ∧ r.idx < b.idx)) :
    aggMinorStep st r = ((packMM r.ver.major r.ver.minor, r) :: st.1, st.2) := by
  simp only [aggMinorStep]
  rw [h]
  show (if r.ver.comp b.ver = .gt ∨ (r.ver.comp b.ver = .eq ∧ r.idx < b.idx) then
      ((packMM r.ver.major r.ver.minor, r) :: st.1, st.2)
    else st) = _
  rw [if_pos hbet]

theorem aggMinorStep_some_keep (st : List (Nat × TagRec) × List Nat) (r : TagRec)
    (b : TagRec) (h : st.1.lookup (packMM r.ver.major r.ver.minor) = some b)
    (hbet : ¬ (r.ver.comp b.ver = .gt ∨ (r.ver.comp b.ver = .eq ∧ r.idx < b.idx))) :
    aggMinorStep st r = st := by
  simp only [aggMinorStep]
  rw [h]
  show (if r.ver.comp b.ver = .gt ∨ (r.ver.comp b.ver = .eq ∧ r.idx < b.idx) then
      ((packMM r.ver.major r.ver.minor, r) :: st.1, st.2)
    else st) = _
  rw [if_neg hbet]

theorem aggMinorStep_inv (done : List TagRec) (st : List (Nat × TagRec) × List Nat)
    (r : TagRec) (h1 : st.2 = keysInOrder done) (h2 : ∀ k, st.1.lookup k = bestOf k done) :
    (aggMinorStep st r).2 = keysInOrder (done ++ [r]) ∧
    (∀ k, (aggMinorStep st r).1.lookup k = bestOf k (done ++ [r])) := by
  have hko : keysInOrder (done ++ [r]) =
      if recKey r ∈ keysInOrder done then keysInOrder done
      else keysInOrder done ++ [recKey r] := by
    unfold keysInOrder
    rw [List.foldl_append]
    rfl
  have hbo : ∀ k, bestOf k (done ++ [r]) = bestStep k (bestOf k done) r := by
    intro k
    unfold bestOf
    rw [List.foldl_append]
    rfl
  cases hb : bestOf (recKey r) done with
  | none =>
    have hlk : st.1.lookup (packMM r.ver.major r.ver.minor) = none := by
      have hx := h2 (recKey r)
      rw [hb] at hx
      exact hx
    have hnm : recKey r ∉ keysInOrder done := by
      intro hmem
      rw [keysInOrder_mem, ← bestOf_isSome, hb] at hmem
      exact Bool.noConfusion hmem
    rw [aggMinorStep_none st r hlk]
    constructor
    · show st.2 ++ [packMM r.ver.major r.ver.minor] = _
      rw [h1, hko, if_neg hnm]
      rfl
    · intro k
      show ((packMM r.ver.major r.ver.minor, r) :: st.1).lookup k = _
      rw [hbo k]
      unfold bestStep
      by_cases hk : recKey r = k
      · rw [if_pos hk, ← hk, hb, lookup_pack_self]
      · rw [if_neg hk, lookup_pack_ne hk, h2 k]
  | some b =>
    have hlk : st.1.lookup (packMM r.ver.major r.ver.minor) = some b := by
      have hx := h2 (recKey r)
      rw [hb] at hx
      exact hx
    have hm : recKey r ∈ keysInOrder done := by
      rw [keysInOrder_mem, ← bestOf_isSome, hb]
      rfl
    by_cases hbet : r.ver.comp b.ver = .gt ∨ (r.ver.comp b.ver = .eq ∧ r.idx < b.idx)
    · rw [aggMinorStep_some_better st r b hlk hbet]
      constructor
      · show st.2 = _
        rw [h1, hko, if_pos hm]
      · intro k
        show ((packMM r.ver.major r.ver.minor, r) :: st.1).lookup k = _
        rw [hbo k]
        unfold bestStep
        by_cases hk : recKey r = k
        · rw [if_pos hk, ← hk, hb, lookup_pack_self]
          show some r = if betterRec r b then some r else some b
          rw [if_pos (show betterRec r b from hbet)]
        · rw [if_neg hk, lookup_pack_ne hk, h2 k]
    · rw [aggMinorStep_some_keep st r b hlk hbet]
      constructor
      · show st.2 = _
        rw [h1, hko, if_pos hm]
      · intro k
        rw [hbo k, h2 k]
        unfold bestStep
        by_cases hk : recKey r = k
        · rw [if_pos hk, ← hk, hb]
          show some b = if betterRec r b then some r else some b
          rw [if_neg (show ¬ betterRec r b from hbet)]
        · rw [if_neg hk]

theorem agg_loop_inv (l : List TagRec) : ∀ (done : List TagRec)
    (st : List (Nat × TagRec) × List Nat),
    st.2 = keysInOrder done →
    (∀ k, st.1.lookup k = bestOf k done) →
    ((l.foldl aggMinorStep st).2 = keysInOrder (done ++ l) ∧
     ∀ k, (l.foldl aggMinorStep st).1.lookup k = bestOf k (done ++ l)) := by
  induction l with
  | nil =>
    intro done st h1 h2
    simp only [List.foldl_nil, List.append_nil]
    exact ⟨h1, h2⟩
  | cons r rs ih =>
    intro done st h1 h2
    simp only [List.foldl_cons]
    have hstep := aggMinorStep_inv done st r h1 h2
    have hx := ih (done ++ [r]) (aggMinorStep st r) hstep.1 hstep.2
    rw [List.append_assoc] at hx
    simpa using hx

theorem aggregateMinor_eq (l : List TagRec) :
    aggregateMinor l = (keysInOrder l).filterMap fun k => bestOf k l := by
  have h := agg_loop_inv l [] ([], []) rfl (fun _ => rfl)
  simp only [List.nil_append] at h
  simp only [aggregateMinor]
  rw [h.1]
  have hfun : (fun k => (l.foldl aggMinorStep ([], [])).1.lookup k) =
      fun k => bestOf k l := funext h.2
  rw [hfun]

theorem bestStep_none_pos {k : Nat} {r : TagRec} (hk : recKey r = k) :
    bestStep k none r = some r := by
  unfold bestStep
  rw [if_pos hk]

theorem bestStep_some_eq {k : Nat} {r c0 : TagRec} (hk : recKey r = k) :
    bestStep k (some c0) r = if betterRec r c0 then some r else some c0 := by
  unfold bestStep
  rw [if_pos hk]

theorem bestStep_neg {k : Nat} (cur : Option TagRec) {r : TagRec} (hk : ¬ recKey r = k) :
    bestStep k cur r = cur := by
  unfold bestStep
  rw [if_neg hk]

theorem bestStep_foldl_mem (k : Nat) (l : List TagRec) : ∀ (cur : Option TagRec) (b : TagRec),
    l.foldl (bestStep k) cur = some b → cur = some b ∨ b ∈ l := by
  induction l with
  | nil =>
    intro cur b h
    exact Or.inl h
  | cons r rs ih =>
    intro cur b h
    simp only [List.foldl_cons] at h
    rcases ih (bestStep k cur r) b h with h0 | h0
    · by_cases hk : recKey r = k
      · cases cur with
        | none =>
          rw [bestStep_none_pos hk] at h0
          injection h0 with h0
          rw [← h0]
          exact Or.inr (List.mem_cons_self r rs)
        | some c0 =>
          rw [bestStep_some_eq hk] at h0
          by_cases hbet : betterRec r c0
          · rw [if_pos hbet] at h0
            injection h0 with h0
            rw [← h0]
            exact Or.inr (List.mem_cons_self r rs)
          · rw [if_neg hbet] at h0
            exact Or.inl h0
      · rw [bestStep_neg cur hk] at h0
        exact Or.inl h0
    · exact Or.inr (List.mem_cons_of_mem r h0)

theorem bestStep_foldl_key (k : Nat) (l : List TagRec) : ∀ (cur : Option TagRec) (b : TagRec),
    (∀ y, cur = some y → recKey y = k) → l.foldl (bestStep k) cur = some b → recKey b = k := by
  induction l with
  | nil =>
    intro cur b hc h
    exact hc b h
  | cons r rs ih =>
    intro cur b hc h
    simp only [List.foldl_cons] at h
    have hnext : ∀ y, bestStep k cur r = some y → recKey y = k := by
      intro y hy
      by_cases hk : recKey r = k
      · cases cur with
        | none =>
          rw [bestStep_none_pos hk] at hy
          rw [← Option.some.inj hy]
          exact hk
        | some c0 =>
          rw [bestStep_some_eq hk] at hy
          by_cases hbet : betterRec r c0
          · rw [if_pos hbet] at hy
            rw [← Option.some.inj hy]
            exact hk
          · rw [if_neg hbet] at hy
            rw [← Option.some.inj hy]
            exact hc c0 rfl
      · rw [bestStep_neg cur hk] at hy
        exact hc y hy
    exact ih (bestStep k cur r) b hnext h

theorem bestStep_foldl_dominates (k : Nat) (l : List TagRec) :
    ∀ (cur : Option TagRec) (b : TagRec),
    l.foldl (bestStep k) cur = some b →
    ((∀ y, cur = some y → ¬ betterRec y b) ∧ ∀ x ∈ l, recKey x = k → ¬ betterRec x b) := by
  induction l with
  | nil =>
    intro cur b h
    simp only [List.foldl_nil] at h
    refine ⟨?_, by simp⟩
    intro y hy
    rw [h] at hy
    injection hy with hy
    rw [← hy]
    exact betterRec_irrefl b
  | cons r rs ih =>
    intro cur b h
    simp only [List.foldl_cons] at h
    by_cases hk : recKey r = k
    · cases cur with
      | none =>
        rw [bestStep_none_pos hk] at h
        obtain ⟨hcur, hrs⟩ := ih (some r) b h
        refine ⟨?_, ?_⟩
        · intro y hy
          exact absurd hy (by simp)
        · intro x hx hkx
          rcases List.mem_cons.mp hx with he | hx2
          · rw [he]
            exact hcur r rfl
          · exact hrs x hx2 hkx
      | some c0 =>
        rw [bestStep_some_eq hk] at h
        by_cases hbet : betterRec r c0
        · rw [if_pos hbet] at h
          obtain ⟨hcur, hrs⟩ := ih (some r) b h
          have hrb := hcur r rfl
          refine ⟨?_, ?_⟩
          · intro y hy
            injection hy with hy
            rw [← hy]
            intro hcb
            exact hrb (betterRec_trans hbet hcb)
          · intro x hx hkx
            rcases List.mem_cons.mp hx with he | hx2
            · rw [he]
              exact hrb
            · exact hrs x hx2 hkx
        · rw [if_neg hbet] at h
          obtain ⟨hcur, hrs⟩ := ih (some c0) b h
          have hcb := hcur c0 rfl
          refine ⟨?_, ?_⟩
          · intro y hy
            injection hy with hy
            rw [← hy]
            exact hcb
          · intro x hx hkx
            rcases List.mem_cons.mp hx with he | hx2
            · rw [he]
              intro hxb
              exact hbet (betterRec_transport hxb hcb)
            · exact hrs x hx2 hkx
    · rw [bestStep_neg cur hk] at h
      obtain ⟨hcur, hrs⟩ := ih cur b h
      refine ⟨hcur, ?_⟩
      intro x hx hkx
      rcases List.mem_cons.mp hx with he | hx2
      · rw [he] at hkx
        exact absurd hkx hk
      · exact hrs x hx2 hkx

theorem bestOf_mem {k : Nat} {l : List TagRec} {b : TagRec} (h : bestOf k l = some b) :
    b ∈ l := by
  rcases bestStep_foldl_mem k l none b h with h0 | h0
  · exact absurd h0 (by simp)
  · exact h0

theorem bestOf_key {k : Nat} {l : List TagRec} {b : TagRec} (h : bestOf k l = some b) :
    recKey b = k :=
  bestStep_foldl_key k l none b (by simp) h

theorem bestOf_dominates {k : Nat} {l : List TagRec} {b : TagRec} (h : bestOf k l = some b) :
    ∀ x ∈ l, recKey x = k → ¬ betterRec x b :=
  (bestStep_foldl_dominates k l none b h).2

theorem firstOcc_cons {α β : Type} [DecidableEq β] (f : α → β) (x : α) (xs : List α) :
    firstOcc f (x :: xs) = x :: firstOcc f (xs.filter fun y => decide (f y ≠ f x)) := by
  rw [firstOcc]

theorem firstOcc_mem_sub {α β : Type} [DecidableEq β] (f : α → β) :
    ∀ (n : Nat) (l : List α), l.length ≤ n → ∀ x ∈ firstOcc f l, x ∈ l := by
  intro n
  induction n with
  | zero =>
    intro l hl x hx
    cases l with
    | nil => simp [firstOcc] at hx
    | cons a as => simp at hl
  | succ n ih =>
    intro l hl x hx
    cases l with
    | nil => simp [firstOcc] at hx
    | cons a as =>
      rw [firstOcc_cons] at hx
      rcases List.mem_cons.mp hx with he | hx2
      · rw [he]
        exact List.mem_cons_self a as
      · have hlen : (as.filter fun y => decide (f y ≠ f a)).length ≤ n := by
          have hfl := List.length_filter_le (fun y => decide (f y ≠ f a)) as
          simp only [List.length_cons] at hl
          omega
        exact List.mem_cons_of_mem a (List.mem_of_mem_filter (ih _ hlen x hx2))

theorem firstOcc_subset {α β : Type} [DecidableEq β] (f : α → β) (l : List α) :
    ∀ x ∈ firstOcc f l, x ∈ l :=
  firstOcc_mem_sub f l.length l (Nat.le_refl _)

theorem firstOcc_map {α β : Type} [DecidableEq β] (f : α → β) :
    ∀ (n : Nat) (l : List α), l.length ≤ n →
    firstOcc (fun k => k) (l.map f) = (firstOcc f l).map f := by
  intro n
  induction n with
  | zero =>
    intro l hl
    cases l with
    | nil => simp [firstOcc]
    | cons a as => simp at hl
  | succ n ih =>
    intro l hl
    cases l with
    | nil => simp [firstOcc]
    | cons a as =>
      rw [List.map_cons, firstOcc_cons, firstOcc_cons, List.map_cons]
      have e2 : ((as.map f).filter fun y => decide (y ≠ f a)) =
          (as.filter fun y => decide (f y ≠ f a)).map f := by
        rw [List.filter_map]
        rfl
      rw [e2]
      have hlen : (as.filter fun y => decide (f y ≠ f a)).length ≤ n := by
        have hfl := List.length_filter_le (fun y => decide (f y ≠ f a)) as
        simp only [List.length_cons] at hl
        omega
      rw [ih _ hlen]

theorem firstOcc_map_eq {α β : Type} [DecidableEq β] (f : α → β) (l : List α) :
    firstOcc (fun k => k) (l.map f) = (firstOcc f l).map f :=
  firstOcc_map f l.length l (Nat.le_refl _)

theorem firstOcc_ext {α β γ : Type} [DecidableEq β] [DecidableEq γ] (f : α → β) (g : α → γ) :
    ∀ (n : Nat) (l : List α), l.length ≤ n →
    (∀ x ∈ l, ∀ y ∈ l, (f x = f y ↔ g x = g y)) →
    firstOcc f l = firstOcc g l := by
  intro n
  induction n with
  | zero =>
    intro l hl hfg
    cases l with
    | nil => simp [firstOcc]
    | cons a as => simp at hl
  | succ n ih =>
    intro l hl hfg
    cases l with
    | nil => simp [firstOcc]
    | cons a as =>
      rw [firstOcc_cons, firstOcc_cons]
      have hfil : (as.filter fun y => decide (f y ≠ f a)) =
          (as.filter fun y => decide (g y ≠ g a)) := by
        apply List.filter_congr
        intro y hy
        have hiff := hfg y (List.mem_cons_of_mem a hy) a (List.mem_cons_self a as)
        by_cases hfy : f y = f a
        · simp [hfy, hiff.mp hfy]
        · have hgy : ¬ g y = g a := fun hc => hfy (hiff.mpr hc)
          simp [hfy, hgy]
      rw [hfil]
      have hlen : (as.filter fun y => decide (g y ≠ g a)).length ≤ n := by
        have hfl := List.length_filter_le (fun y => decide (g y ≠ g a)) as
        simp only [List.length_cons] at hl
        omega
      rw [ih _ hlen]
      intro x hx y hy
      exact hfg x (List.mem_cons_of_mem a (List.mem_of_mem_filter hx))
        y (List.mem_cons_of_mem a (List.mem_of_mem_filter hy))

theorem firstOcc_ext_eq {α β γ : Type} [DecidableEq β] [DecidableEq γ] (f : α → β) (g : α → γ)
    (l : List α) (h : ∀ x ∈ l, ∀ y ∈ l, (f x = f y ↔ g x = g y)) :
    firstOcc f l = firstOcc g l :=
  firstOcc_ext f g l.length l (Nat.le_refl _) h

theorem keysInOrder_foldl_eq (l : List TagRec) : ∀ (acc : List Nat),
    l.foldl (fun acc r => if recKey r ∈ acc then acc else acc ++ [recKey r]) acc
      = acc ++ firstOcc (fun k => k) ((l.map recKey).filter fun k => decide (k ∉ acc)) := by
  induction l with
  | nil =>
    intro acc
    simp [firstOcc]
  | cons r rs ih =>
    intro acc
    simp only [List.foldl_cons, List.map_cons]
    by_cases hk : recKey r ∈ acc
    · rw [if_pos hk, ih acc]
      have hfil : ((recKey r :: rs.map recKey).filter fun k => decide (k ∉ acc)) =
          ((rs.map recKey).filter fun k => decide (k ∉ acc)) := by
        rw [List.filter_cons]
        simp [hk]
      rw [hfil]
    · rw [if_neg hk, ih (acc ++ [recKey r])]
      have hfil : ((recKey r :: rs.map recKey).filter fun k => decide (k ∉ acc)) =
          recKey r :: ((rs.map recKey).filter fun k => decide (k ∉ acc)) := by
        rw [List.filter_cons]
        simp [hk]
      rw [hfil, firstOcc_cons, List.append_assoc, List.singleton_append]
      have hfil2 : ((rs.map recKey).filter fun k => decide (k ∉ acc ++ [recKey r])) =
          (((rs.map recKey).filter fun k => decide (k ∉ acc)).filter
            fun y => decide (y ≠ recKey r)) := by
        rw [List.filter_filter]
        apply List.filter_congr
        intro y hy
        by_cases h1 : y = recKey r
        · simp [h1]
        · by_cases h2 : y ∈ acc
          · simp [h1, h2]
          · simp [h1, h2]
      rw [hfil2]

theorem keysInOrder_eq_firstOcc (l : List TagRec) :
    keysInOrder l = firstOcc (fun k => k) (l.map recKey) := by
  rw [keysInOrder, keysInOrder_foldl_eq]
  simp

theorem filterMap_bestOf_map (l : List TagRec) :
    ∀ (K : List Nat), (∀ k ∈ K, ∃ r ∈ l, recKey r = k) →
    ((K.filterMap fun k => bestOf k l).map recKey) = K := by
  intro K
  induction K with
  | nil =>
    intro _
    rfl
  | cons k ks ih =>
    intro hK
    have hex : ∃ r ∈ l, recKey r = k := hK k (List.mem_cons_self k ks)
    have hsome : (bestOf k l).isSome = true := (bestOf_isSome l k).mpr hex
    obtain ⟨b, hb⟩ := Option.isSome_iff_exists.mp hsome
    rw [List.filterMap_cons, hb]
    show List.map recKey (b :: List.filterMap (fun k2 => bestOf k2 l) ks) = k :: ks
    rw [List.map_cons, bestOf_key hb,
      ih fun k2 hk2 => hK k2 (List.mem_cons_of_mem k hk2)]

theorem aggregateMinor_subset (l : List TagRec) : ∀ b ∈ aggregateMinor l, b ∈ l := by
  intro b hbm
  rw [aggregateMinor_eq] at hbm
  obtain ⟨k, hkm, hk⟩ := List.mem_filterMap.mp hbm
  exact bestOf_mem hk

theorem packMM_bounded {maj minV : Nat} (hm : maj < 2 ^ 32) (hn : minV < 2 ^ 32) :
    packMM maj minV = maj * 2 ^ 32 + minV := by
  unfold packMM
  have h1 : maj * 2 ^ 32 < 2 ^ 64 := by
    have h2 : maj * 2 ^ 32 ≤ (2 ^ 32 - 1) * 2 ^ 32 :=
      Nat.mul_le_mul_right _ (by omega)
    have h3 : (2 ^ 32 - 1) * 2 ^ 32 < 2 ^ 64 := by norm_num
    omega
  rw [Nat.mod_eq_of_lt h1, Nat.mod_eq_of_lt hn]

theorem recKey_eq_pair {x y : TagRec}
    (hx1 : x.ver.major < 2 ^ 32) (hx2 : x.ver.minor < 2 ^ 32)
    (hy1 : y.ver.major < 2 ^ 32) (hy2 : y.ver.minor < 2 ^ 32) :
    (recKey x = recKey y ↔ pairKey x = pairKey y) := by
  unfold recKey pairKey
  rw [packMM_bounded hx1 hx2, packMM_bounded hy1 hy2]
  constructor
  · intro h
    rw [Prod.mk.injEq]
    have e32 : (2 : Nat) ^ 32 = 4294967296 := by norm_num
    rw [e32] at h hx2 hy2
    omega
  · intro h
    rw [Prod.mk.injEq] at h
    rw [h.1, h.2]

theorem unpack_recKey {r : TagRec} (h1 : r.ver.major < 2 ^ 32) (h2 : r.ver.minor < 2 ^ 32) :
    unpackMM (recKey r) = pairKey r := by
  unfold unpackMM recKey pairKey
  rw [packMM_bounded h1 h2, Prod.mk.injEq]
  constructor
  · rw [Nat.mul_comm, Nat.mul_add_div (by norm_num), Nat.div_eq_of_lt h2, Nat.add_zero]
  · rw [Nat.mul_comm, Nat.mul_add_mod, Nat.mod_eq_of_lt h2]

theorem aggregateMinor_map_pairKey (l : List TagRec)
    (hb : ∀ r ∈ l, r.ver.major < 2 ^ 32 ∧ r.ver.minor < 2 ^ 32) :
    (aggregateMinor l).map pairKey = firstOcc (fun p => p) (l.map pairKey) := by
  have hA : (aggregateMinor l).map recKey = keysInOrder l := by
    rw [aggregateMinor_eq]
    exact filterMap_bestOf_map l (keysInOrder l) fun k hk => (keysInOrder_mem l k).mp hk
  have step1 : (aggregateMinor l).map pairKey =
      (aggregateMinor l).map (fun r => unpackMM (recKey r)) := by
    apply List.map_congr_left
    intro r hr
    obtain ⟨h1, h2⟩ := hb r (aggregateMinor_subset l r hr)
    exact (unpack_recKey h1 h2).symm
  have step2 : (aggregateMinor l).map (fun r => unpackMM (recKey r)) =
      (keysInOrder l).map unpackMM := by
    rw [← hA, List.map_map]
    rfl
  have step3 : keysInOrder l = (firstOcc recKey l).map recKey := by
    rw [keysInOrder_eq_firstOcc, firstOcc_map_eq]
  have step4 : ((firstOcc recKey l).map recKey).map unpackMM =
      (firstOcc recKey l).map pairKey := by
    rw [List.map_map]
    apply List.map_congr_left
    intro r hr
    obtain ⟨h1, h2⟩ := hb r (firstOcc_subset recKey l r hr)
    exact unpack_recKey h1 h2
  have step5 : firstOcc recKey l = firstOcc pairKey l := by
    apply firstOcc_ext_eq
    intro x hx y hy
    obtain ⟨hx1, hx2⟩ := hb x hx
    obtain ⟨hy1, hy2⟩ := hb y hy
    exact recKey_eq_pair hx1 hx2 hy1 hy2
  rw [step1, step2, step3, step4, step5, ← firstOcc_map_eq]

theorem aggregateMinor_best (l : List TagRec) :
    ∀ b ∈ aggregateMinor l, b ∈ l ∧ ∀ x ∈ l, pairKey x = pairKey b →
      (x.ver.comp b.ver = .lt ∨ (x.ver.comp b.ver = .eq ∧ b.idx ≤ x.idx)) := by
  intro b hbm
  rw [aggregateMinor_eq] at hbm
  obtain ⟨k, hkm, hk⟩ := List.mem_filterMap.mp hbm
  refine ⟨bestOf_mem hk, ?_⟩
  intro x hx hpk
  have hkb : recKey b = k := bestOf_key hk
  have hkx : recKey x = k := by
    rw [← hkb]
    unfold recKey
    unfold pairKey at hpk
    rw [Prod.mk.injEq] at hpk
    rw [hpk.1, hpk.2]
  exact notBetter_iff.mp (bestOf_dominates hk x hx hkx)

/-- C3: Minor-depth aggregation groups the parsed facts by (major, minor)
— one representative per key, emitted in the order of each key's first
appearance in the input (the output's key sequence is exactly the
first-occurrence dedup of the input's key sequence) — and each emitted
record is a member of the input that every same-key input record either
strictly precedes in precedence or ties with at a later-or-equal input
position (highest precedence, earliest-position tie-break); in particular
["1.0.0", "1.0.1", "1.1.0"] aggregates to ["1.0.1", "1.1.0"]. The bound
hypothesis reflects the source's own invariant that semver major/minor
fit the packed 64-bit key (`#nosec G115 -- semver major/minor are
bounded`). -/
theorem c3_aggregate_minor (l : List TagRec)
    (hb : ∀ r ∈ l, r.ver.major < 2 ^ 32 ∧ r.ver.minor < 2 ^ 32) :
    ((aggregateMinor l).map pairKey = firstOcc (fun p => p) (l.map pairKey) ∧
     ∀ b ∈ aggregateMinor l, b ∈ l ∧ ∀ x ∈ l, pairKey x = pairKey b →
       (x.ver.comp b.ver = .lt ∨ (x.ver.comp b.ver = .eq ∧ b.idx ≤ x.idx))) ∧
    (aggregateMinor (parseAll ["1.0.0".data, "1.0.1".data, "1.1.0".data]).1).map TagRec.raw =
      ["1.0.1".data, "1.1.0".data] := by
  refine ⟨⟨aggregateMinor_map_pairKey l hb, aggregateMinor_best l⟩, ?_⟩
  rfl

/-- Witness for C3 at the example input. -/
theorem c3_witness :
    (∀ r ∈ (parseAll ["1.0.0".data, "1.0.1".data, "1.1.0".data]).1,
      r.ver.major < 2 ^ 32 ∧ r.ver.minor < 2 ^ 32) ∧
    (aggregateMinor (parseAll ["1.0.0".data, "1.0.1".data, "1.1.0".data]).1).map pairKey =
      firstOcc (fun p => p)
        ((parseAll ["1.0.0".data, "1.0.1".data, "1.1.0".data]).1.map pairKey) := by
  refine ⟨by decide, ?_⟩
  exact (c3_aggregate_minor (parseAll ["1.0.0".data, "1.0.1".data, "1.1.0".data]).1
    (by decide)).1.1
